import Mathlib

/-!
# Verification of the generic search engine (benchmarking-rust)

Shallow embedding of the core of the repository: the `Problem` contract,
the `Node` / path model, the `Metrics` / `SharedMetrics` model, the five
search algorithms (BFS, DFS, Iterative Deepening, A*, IDA*), the per-task
timeout protocol of the benchmark runner, and the result aggregation.

Modelling conventions (stated once, used throughout):
* Rust `usize` values are modelled as `Nat` (the claims under study never
  exercise overflow); `usize::MAX` is modelled by the constant `usizeMAX`.
* `time_ms` is `f64` in the source but always assigned from
  `Instant::elapsed().as_millis()` (an integer) ; it is modelled as `Nat`.
  Wall-clock reads inside the search loops are not modelled: the embedded
  search functions leave `time_ms` untouched, and the `SharedMetrics`
  operations receive the current elapsed value as an explicit `now`
  argument.
* `std::mem::size_of::<P::State>()` is a platform constant; it is carried
  as the `stateSize` field of the embedded problem record.
* `HashSet<State>` is modelled as a duplicate-free `List` (`hsInsert`,
  `hsRemove`); `HashMap<State, usize>` as an association list where
  insertion shadows older entries (`gsInsert`, `gsGet`).
* Loops of the source are modelled with an explicit fuel argument; a fuel
  of `0` yields `none`, and every theorem about a loop result is stated on
  runs that return `some`.
-/

namespace BenchRust

/-- `Metrics` record (src/benchmarking/metrics.rs). `time_ms` is the
integer milliseconds value, see the modelling conventions above. -/
structure Metrics where
  time_ms : Nat
  memory_kb : Nat
  nodes_visited : Nat
  nodes_generated : Nat
  max_frontier_size : Nat
  solution_length : Nat
deriving DecidableEq, Repr

/-- `Metrics::default()` : all fields zero. -/
def Metrics.default : Metrics :=
  { time_ms := 0, memory_kb := 0, nodes_visited := 0, nodes_generated := 0
    max_frontier_size := 0, solution_length := 0 }

/-- `SearchResult` (src/algorithms/mod.rs as used by every algorithm and
the runner: `status` is 0 = success, 1 = timeout, 2 = no solution). -/
structure SearchResult where
  solution : Option (List Nat)
  metrics : Metrics
  status : Nat
deriving DecidableEq, Repr

/-- The `Problem` trait (src/algorithms/mod.rs), instantiated at a state
type `S`.  `stateSize` carries `std::mem::size_of::<State>()`. -/
structure Problem (S : Type) where
  initial_state : S
  is_goal : S → Bool
  successors : S → List (S × Nat)
  heuristic : S → Nat
  stateSize : Nat

/-- `Node<S>` (src/algorithms/mod.rs): state, boxed parent, action index,
path cost and depth. -/
inductive Node (S : Type) : Type where
  | mk : S → Option (Node S) → Option Nat → Nat → Nat → Node S

/-- Field accessor: `node.state`. -/
def Node.state {S : Type} : Node S → S
  | .mk s _ _ _ _ => s

/-- Field accessor: `node.parent`. -/
def Node.parent {S : Type} : Node S → Option (Node S)
  | .mk _ p _ _ _ => p

/-- Field accessor: `node.action`. -/
def Node.action {S : Type} : Node S → Option Nat
  | .mk _ _ a _ _ => a

/-- Field accessor: `node.path_cost`. -/
def Node.path_cost {S : Type} : Node S → Nat
  | .mk _ _ _ c _ => c

/-- Field accessor: `node.depth`. -/
def Node.depth {S : Type} : Node S → Nat
  | .mk _ _ _ _ d => d

/-- `Node::new(state)` : root node with no parent, no action, zero cost
and zero depth. -/
def Node.new {S : Type} (state : S) : Node S :=
  .mk state none none 0 0

/-- `Node::child(state, action, step_cost)` : child owning a copy of the
current node, cost `self.path_cost + step_cost`, depth `self.depth + 1`. -/
def Node.child {S : Type} (self : Node S) (state : S) (action : Nat)
    (step_cost : Nat) : Node S :=
  .mk state (some self) (some action) (self.path_cost + step_cost)
    (self.depth + 1)

/-- The `while let` walk of `extract_solution` before the final
`reverse`: actions pushed from the node towards the root. -/
def Node.collectActions {S : Type} : Node S → List Nat
  | .mk _ parent action _ _ =>
    (match action with | some a => [a] | none => []) ++
    (match parent with | some p => p.collectActions | none => [])

/-- `Node::extract_solution()` : collect actions walking parent links to
the root, then reverse into root-to-goal order. -/
def Node.extract_solution {S : Type} (n : Node S) : List Nat :=
  n.collectActions.reverse

/-- A root followed by a sequence of `child` calls: each step carries the
successor state, the action index and the step cost. -/
def mkChain {S : Type} (root : S) (steps : List (S × Nat × Nat)) : Node S :=
  steps.foldl (fun n st => n.child st.1 st.2.1 st.2.2) (Node.new root)

/-!
## SharedMetrics (src/benchmarking/metrics.rs)

`SharedMetrics` is an `Arc<Mutex<Metrics>>` plus the fixed `start`
instant.  Each public operation acquires the lock, mutates the record and
releases the lock, so each operation is one atomic step on the protected
`Metrics` value; the current `start.elapsed().as_millis()` reading is
passed as the explicit `now` argument (operations that never read the
clock simply ignore it).  Lock poisoning (`if let Ok(..)`) is not
modelled: the lock is always acquired. -/

/-- `SharedMetrics::update(f)` : apply `f`, then refresh `time_ms`. -/
def SharedMetrics.update (m : Metrics) (now : Nat) (f : Metrics → Metrics) :
    Metrics :=
  { f m with time_ms := now }

/-- `SharedMetrics::increment_visited()`. -/
def SharedMetrics.increment_visited (m : Metrics) (now : Nat) : Metrics :=
  { m with nodes_visited := m.nodes_visited + 1, time_ms := now }

/-- `SharedMetrics::increment_generated()`. -/
def SharedMetrics.increment_generated (m : Metrics) (now : Nat) : Metrics :=
  { m with nodes_generated := m.nodes_generated + 1 }

/-- `SharedMetrics::update_max_frontier(size)`. -/
def SharedMetrics.update_max_frontier (m : Metrics) (now : Nat) (size : Nat) :
    Metrics :=
  { m with max_frontier_size := max m.max_frontier_size size }

/-- `SharedMetrics::set_memory_kb(kb)`. -/
def SharedMetrics.set_memory_kb (m : Metrics) (now : Nat) (kb : Nat) :
    Metrics :=
  { m with memory_kb := kb }

/-- `SharedMetrics::set_solution_length(len)`. -/
def SharedMetrics.set_solution_length (m : Metrics) (now : Nat) (len : Nat) :
    Metrics :=
  { m with solution_length := len }

/-- `SharedMetrics::get()` : clone of the protected record. -/
def SharedMetrics.get (m : Metrics) : Metrics := m

/-!
## Concurrency model for C9

Every `SharedMetrics` mutation runs while holding the single `Mutex`, so a
concurrent execution of any number of callers is equivalent to some
sequential interleaving of the lock-protected operations, i.e. to folding
a list of atomic operations over the protected record.  `MetricOp` lists
the field mutations; `now` is the elapsed-clock value each operation
observes. -/

inductive MetricOp where
  | incVisited (now : Nat)
  | incGenerated (now : Nat)
  | updMaxFrontier (now : Nat) (size : Nat)
  | setMemoryKb (now : Nat) (kb : Nat)
  | setSolutionLength (now : Nat) (len : Nat)
deriving DecidableEq, Repr

/-- One lock-protected operation on the shared record. -/
def applyOp (m : Metrics) : MetricOp → Metrics
  | .incVisited now => SharedMetrics.increment_visited m now
  | .incGenerated now => SharedMetrics.increment_generated m now
  | .updMaxFrontier now size => SharedMetrics.update_max_frontier m now size
  | .setMemoryKb now kb => SharedMetrics.set_memory_kb m now kb
  | .setSolutionLength now len => SharedMetrics.set_solution_length m now len

/-- A sequential interleaving of lock-protected operations. -/
def applyOps (m : Metrics) (ops : List MetricOp) : Metrics :=
  ops.foldl applyOp m

/-- Whether an operation is an `increment_visited` call. -/
def MetricOp.isIncVisited : MetricOp → Bool
  | .incVisited _ => true
  | _ => false

/-!
## HashSet / HashMap models -/

/-- `HashSet::insert` : no duplicate is ever stored. -/
def hsInsert {S : Type} [DecidableEq S] (l : List S) (s : S) : List S :=
  if s ∈ l then l else s :: l

/-- `HashSet::remove`. -/
def hsRemove {S : Type} [DecidableEq S] (l : List S) (s : S) : List S :=
  l.filter (fun t => t ≠ s)

/-- `HashMap::insert` : the new binding shadows any older one. -/
def gsInsert {S : Type} (l : List (S × Nat)) (s : S) (v : Nat) :
    List (S × Nat) :=
  (s, v) :: l

/-- `HashMap::get` : the most recent binding for the key. -/
def gsGet {S : Type} [DecidableEq S] (l : List (S × Nat)) (s : S) :
    Option Nat :=
  (l.find? (fun p => p.1 = s)).map (fun p => p.2)

/-!
## BFS (src/algorithms/bfs.rs)

The `VecDeque` frontier is a list: `pop_front` takes the head, `push_back`
appends at the end.  The `for` loop over `problem.successors` is the
recursive helper `bfsExpand`, which threads the live frontier and the
metrics exactly as the source does (in particular the `action` passed to
`Node::child` is the current `metrics.nodes_generated` counter, and the
frontier-membership test runs over the live frontier including children
pushed earlier in the same expansion). -/

/-- The body of BFS's successor loop: generate each successor that is
neither explored nor already in the live frontier. -/
def bfsExpand {S : Type} [DecidableEq S] (u : Node S) (explored : List S) :
    List (S × Nat) → List (Node S) → Metrics → List (Node S) × Metrics
  | [], frontier, m => (frontier, m)
  | (s, c) :: rest, frontier, m =>
    if s ∉ explored ∧ s ∉ frontier.map Node.state then
      bfsExpand u explored rest
        (frontier ++ [u.child s m.nodes_generated c])
        { m with nodes_generated := m.nodes_generated + 1 }
    else
      bfsExpand u explored rest frontier m

/-- The `while let Some(node) = frontier.pop_front()` loop of
`BFS::search`, with explicit fuel. -/
def bfsLoop {S : Type} [DecidableEq S] (p : Problem S) :
    Nat → List (Node S) → List S → Metrics → Option SearchResult
  | 0, _, _, _ => none
  | _ + 1, [], explored, m =>
    some { solution := none
           metrics := { m with memory_kb := explored.length * p.stateSize / 1024 }
           status := 2 }
  | fuel + 1, node :: rest, explored, m =>
    let m := { m with nodes_visited := m.nodes_visited + 1 }
    if p.is_goal node.state then
      let sol := node.extract_solution
      let mGoal := { m with solution_length := sol.length, memory_kb := (explored.length + rest.length) * p.stateSize / 1024 }
      some { solution := some sol, metrics := mGoal, status := 0 }
    else
      let explored := hsInsert explored node.state
      let fm := bfsExpand node explored (p.successors node.state) rest m
      bfsLoop p fuel fm.1 explored
        { fm.2 with max_frontier_size := max fm.2.max_frontier_size fm.1.length }

/-- `BFS::search` : root node in the frontier, empty explored set,
`nodes_generated` initialised to 1. -/
def BFS.search {S : Type} [DecidableEq S] (p : Problem S) (fuel : Nat) :
    Option SearchResult :=
  bfsLoop p fuel [Node.new p.initial_state] []
    { Metrics.default with nodes_generated := 1 }

/-!
## DFS (src/algorithms/dfs.rs)

The `Vec` stack is a list with its top at the head: `push` is `cons`,
`pop` takes the head.  A node deeper than `max_depth` is dropped by
`continue`, which also skips the `max_frontier_size` update.  The
explored check of DFS has no frontier-membership part. -/

/-- The body of DFS's successor loop. -/
def dfsExpand {S : Type} [DecidableEq S] (u : Node S) (explored : List S) :
    List (S × Nat) → List (Node S) → Metrics → List (Node S) × Metrics
  | [], frontier, m => (frontier, m)
  | (s, c) :: rest, frontier, m =>
    if s ∉ explored then
      dfsExpand u explored rest
        (u.child s m.nodes_generated c :: frontier)
        { m with nodes_generated := m.nodes_generated + 1 }
    else
      dfsExpand u explored rest frontier m

/-- The depth cutoff of DFS: `if node.depth > max_depth { continue; }`,
applied only when a `max_depth` is configured. -/
def depthExceeds (maxDepth : Option Nat) (d : Nat) : Bool :=
  match maxDepth with
  | some md => decide (d > md)
  | none => false

/-- The `while let Some(node) = frontier.pop()` loop of `DFS::search`. -/
def dfsLoop {S : Type} [DecidableEq S] (p : Problem S) (maxDepth : Option Nat) :
    Nat → List (Node S) → List S → Metrics → Option SearchResult
  | 0, _, _, _ => none
  | _ + 1, [], explored, m =>
    some { solution := none
           metrics := { m with memory_kb := explored.length * p.stateSize / 1024 }
           status := 2 }
  | fuel + 1, node :: rest, explored, m =>
    let m := { m with nodes_visited := m.nodes_visited + 1 }
    if depthExceeds maxDepth node.depth then
      dfsLoop p maxDepth fuel rest explored m
    else if p.is_goal node.state then
      let sol := node.extract_solution
      let mGoal := { m with solution_length := sol.length, memory_kb := (explored.length + rest.length) * p.stateSize / 1024 }
      some { solution := some sol, metrics := mGoal, status := 0 }
    else
      let explored := hsInsert explored node.state
      let fm := dfsExpand node explored (p.successors node.state) rest m
      dfsLoop p maxDepth fuel fm.1 explored
        { fm.2 with max_frontier_size := max fm.2.max_frontier_size fm.1.length }

/-- `DFS::search` with the given `max_depth` option. -/
def DFS.search {S : Type} [DecidableEq S] (p : Problem S)
    (maxDepth : Option Nat) (fuel : Nat) : Option SearchResult :=
  dfsLoop p maxDepth fuel [Node.new p.initial_state] []
    { Metrics.default with nodes_generated := 1 }

/-!
## A* successor loop (src/algorithms/astar.rs)

The claims under study touch A* only through its successor loop, so the
`BinaryHeap` pop order is not modelled; the frontier is the list of
pushed `AStarNode`s in push order. -/

/-- `AStarNode`: a node paired with its `f`-score. -/
structure AStarNode (S : Type) where
  node : Node S
  f_score : Nat

/-- A*'s `continue` condition: a `g_scores` entry exists for the
successor and the tentative `g` does not improve strictly on it. -/
def gScoreSkip {S : Type} [DecidableEq S] (gScores : List (S × Nat)) (s : S)
    (tentative_g : Nat) : Bool :=
  match gsGet gScores s with
  | some existing_g => decide (tentative_g ≥ existing_g)
  | none => false

/-- The body of A*'s successor loop: a successor is pushed only when its
tentative `g` improves strictly on any recorded `g_scores` entry; the `f`
score is `tentative_g + h`; the `action` passed to `Node::child` is the
current `metrics.nodes_generated` counter. -/
def astarExpand {S : Type} [DecidableEq S] (p : Problem S) (u : Node S) :
    List (S × Nat) → List (AStarNode S) → List (S × Nat) → Metrics →
      List (AStarNode S) × List (S × Nat) × Metrics
  | [], frontier, gScores, m => (frontier, gScores, m)
  | (s, c) :: rest, frontier, gScores, m =>
    let tentative_g := u.path_cost + c
    if gScoreSkip gScores s tentative_g then
      astarExpand p u rest frontier gScores m
    else
      astarExpand p u rest
        (frontier ++ [{ node := u.child s m.nodes_generated c
                        f_score := tentative_g + p.heuristic s }])
        (gsInsert gScores s tentative_g)
        { m with nodes_generated := m.nodes_generated + 1 }

/-- The `while let Some(astar_node) = frontier.pop()` loop of
`AStar::search`.  The `BinaryHeap` pop policy (greatest element of the
reversed `f`-score order) is abstracted as the `pop` parameter — none of
the claims under study depends on the order in which A* pops its
frontier, only on what it does with the popped node: goal test, the
closed-list skip on an `explored` key, expansion through `astarExpand`,
and the `max` of the frontier length. -/
def astarLoop {S : Type} [DecidableEq S] (p : Problem S)
    (pop : List (AStarNode S) → Option (AStarNode S × List (AStarNode S))) :
    Nat → List (AStarNode S) → List (S × Nat) → List (S × Nat) → Metrics →
      Option SearchResult
  | 0, _, _, _, _ => none
  | fuel + 1, frontier, explored, gScores, m =>
    match pop frontier with
    | none =>
      some { solution := none
             metrics := { m with memory_kb := explored.length * p.stateSize / 1024 }
             status := 2 }
    | some (astar_node, frontier) =>
      let node := astar_node.node
      let m := { m with nodes_visited := m.nodes_visited + 1 }
      if p.is_goal node.state then
        let sol := node.extract_solution
        let mGoal := { m with solution_length := sol.length, memory_kb := (explored.length + frontier.length) * p.stateSize / 1024 }
        some { solution := some sol, metrics := mGoal, status := 0 }
      else if node.state ∈ explored.map Prod.fst then
        astarLoop p pop fuel frontier explored gScores m
      else
        let explored := (node.state, node.path_cost) :: explored
        let fgm := astarExpand p node (p.successors node.state) frontier gScores m
        astarLoop p pop fuel fgm.1 explored fgm.2.1
          { fgm.2.2 with max_frontier_size := max fgm.2.2.max_frontier_size fgm.1.length }

/-- `AStar::search` : the initial node is pushed with `f = h(initial)`,
`g_scores` starts with the initial state at 0, `nodes_generated` at 1. -/
def AStar.search {S : Type} [DecidableEq S] (p : Problem S)
    (pop : List (AStarNode S) → Option (AStarNode S × List (AStarNode S)))
    (fuel : Nat) : Option SearchResult :=
  astarLoop p pop fuel
    [{ node := Node.new p.initial_state
       f_score := p.heuristic p.initial_state }]
    [] (gsInsert [] p.initial_state 0)
    { Metrics.default with nodes_generated := 1 }

/-!
## Iterative Deepening (src/algorithms/iterative_deepening.rs)

`for depth in 0..=max_depth`: run `DFS::with_max_depth(depth)`, add its
`nodes_visited` / `nodes_generated` into the running totals, take the
`max` of `max_frontier_size`, and return the DFS result's solution on the
first success.  `remaining` counts the depths still to be tried, so the
iteration at `remaining = r + 1` runs depth `maxDepth - r`. -/

/-- Lines 25-29 of iterative_deepening.rs: add one iteration's
`nodes_visited` and `nodes_generated` into the totals and take the `max`
of `max_frontier_size`. -/
def accumulateIteration (total mi : Metrics) : Metrics :=
  { total with
    nodes_visited := total.nodes_visited + mi.nodes_visited,
    nodes_generated := total.nodes_generated + mi.nodes_generated,
    max_frontier_size := max total.max_frontier_size mi.max_frontier_size }

/-- The depth loop of `IterativeDeepening::search`; `dfsFuel` is the fuel
handed to each inner DFS run. -/
def idGo {S : Type} [DecidableEq S] (p : Problem S)
    (dfsFuel : Nat) : Nat → Nat → Metrics → Option SearchResult
  | 0, _, total => some { solution := none, metrics := total, status := 2 }
  | remaining + 1, depth, total =>
    match DFS.search p (some depth) dfsFuel with
    | none => none
    | some result =>
      let total := accumulateIteration total result.metrics
      if result.status = 0 then
        let mDone := { total with solution_length := result.metrics.solution_length, memory_kb := result.metrics.memory_kb }
        some { solution := result.solution, metrics := mDone, status := 0 }
      else
        idGo p dfsFuel remaining (depth + 1) total

/-- `IterativeDeepening::search` with bound `max_depth`. -/
def IterativeDeepening.search {S : Type} [DecidableEq S] (p : Problem S)
    (maxDepth : Nat) (dfsFuel : Nat) : Option SearchResult :=
  idGo p dfsFuel (maxDepth + 1) 0 Metrics.default

/-- A two-successor problem: state 0 has successors `[(1, 1), (2, 1)]`
and the goal is state 1, i.e. the successor edge of index 0. -/
def twoEdgeProblem : Problem Nat :=
  { initial_state := 0
    is_goal := fun s => s == 1
    successors := fun s => if s = 0 then [(1, 1), (2, 1)] else []
    heuristic := fun _ => 0
    stateSize := 8 }

/-- The metrics of the DFS iteration with depth bound `i` (defaulting to
the zero record when the run returns no value for lack of fuel). -/
def dfsMetricsAt {S : Type} [DecidableEq S] (p : Problem S)
    (dfsFuel i : Nat) : Metrics :=
  ((DFS.search p (some i) dfsFuel).map SearchResult.metrics).getD
    Metrics.default

/-- The metrics of the `n` DFS iterations with depth bounds
`lo, lo+1, …, lo+n-1`. -/
def dfsMetricsList {S : Type} [DecidableEq S] (p : Problem S)
    (dfsFuel : Nat) (lo n : Nat) : List Metrics :=
  (List.range n).map (fun j => dfsMetricsAt p dfsFuel (lo + j))

/-!
## IDA* (src/algorithms/idastar.rs)

`search_recursive` visits a node, cuts when `f = path_cost + heuristic`
exceeds the bound (returning that `f`), tests the goal, inserts the state
into the path-membership set, recurses over the successors accumulating
the minimum returned bound (`usize::MAX` when nothing was cut), and
removes the state on the way out.  The recursion is modelled with fuel;
the `for` loop over successors is `srLoop`, parameterised by the
recursive call. -/

/-- `usize::MAX`. -/
def usizeMAX : Nat := 2 ^ 64 - 1

/-- The successor loop of `search_recursive`: skip states on the current
path, recurse into each remaining child, return at once on success
(removing the node's state), and keep the minimum bound returned by
failed children. -/
def srLoop {S : Type} [DecidableEq S] (node : Node S)
    (recur : Node S → List S → Metrics →
      Option ((Option (List Nat) × Nat) × List S × Metrics)) :
    List (S × Nat) → Nat → List S → Metrics →
      Option ((Option (List Nat) × Nat) × List S × Metrics)
  | [], minB, explored, m => some ((none, minB), hsRemove explored node.state, m)
  | (s, c) :: rest, minB, explored, m =>
    if s ∈ explored then
      srLoop node recur rest minB explored m
    else
      match recur (node.child s m.nodes_generated c) explored
          { m with nodes_generated := m.nodes_generated + 1 } with
      | none => none
      | some ((result, newBound), explored, m) =>
        match result with
        | some sol => some ((some sol, 0), hsRemove explored node.state, m)
        | none =>
          srLoop node recur rest
            (if newBound < minB then newBound else minB) explored m

/-- `IDAStar::search_recursive`, with fuel bounding the recursion
depth. -/
def searchRecursive {S : Type} [DecidableEq S] (p : Problem S) :
    Nat → Node S → Nat → List S → Metrics →
      Option ((Option (List Nat) × Nat) × List S × Metrics)
  | 0, _, _, _, _ => none
  | fuel + 1, node, bound, explored, m =>
    let m := { m with nodes_visited := m.nodes_visited + 1 }
    let f := node.path_cost + p.heuristic node.state
    if f > bound then some ((none, f), explored, m)
    else if p.is_goal node.state then
      some ((some node.extract_solution, 0), explored, m)
    else
      srLoop node (fun n ex mm => searchRecursive p fuel n bound ex mm)
        (p.successors node.state) usizeMAX (hsInsert explored node.state) m

/-- The `loop` of `IDAStar::search`: run an iteration at the current
bound with a fresh explored set, return on success, stop with status 2
when the new bound is `usize::MAX` or the current bound has reached
`max_bound`, otherwise continue with the returned bound. -/
def idastarLoop {S : Type} [DecidableEq S] (p : Problem S)
    (maxBound recFuel : Nat) : Nat → Nat → Metrics → Option SearchResult
  | 0, _, _ => none
  | iterFuel + 1, bound, m =>
    match searchRecursive p recFuel (Node.new p.initial_state) bound [] m with
    | none => none
    | some ((result, newBound), explored, m) =>
      match result with
      | some sol =>
        some { solution := some sol
               metrics := { m with solution_length := sol.length, memory_kb := explored.length * p.stateSize / 1024 }
               status := 0 }
      | none =>
        if newBound = usizeMAX ∨ bound ≥ maxBound then
          some { solution := none, metrics := m, status := 2 }
        else
          idastarLoop p maxBound recFuel iterFuel newBound m

/-- `IDAStar::search` : the first bound is `heuristic(initial_state)`,
`nodes_generated` starts at 1. -/
def IDAStar.search {S : Type} [DecidableEq S] (p : Problem S)
    (maxBound recFuel iterFuel : Nat) : Option SearchResult :=
  idastarLoop p maxBound recFuel iterFuel (p.heuristic p.initial_state)
    { Metrics.default with nodes_generated := 1 }

/-- Instrumented twin of `srLoop`: identical control flow and data, plus
the list of `f`-values at which the bound test cut (ghost data used to
state C7). -/
def srLoopI {S : Type} [DecidableEq S] (node : Node S)
    (recurI : Node S → List S → Metrics →
      Option (((Option (List Nat) × Nat) × List S × Metrics) × List Nat)) :
    List (S × Nat) → Nat → List S → Metrics → List Nat →
      Option (((Option (List Nat) × Nat) × List S × Metrics) × List Nat)
  | [], minB, explored, m, cuts =>
    some (((none, minB), hsRemove explored node.state, m), cuts)
  | (s, c) :: rest, minB, explored, m, cuts =>
    if s ∈ explored then
      srLoopI node recurI rest minB explored m cuts
    else
      match recurI (node.child s m.nodes_generated c) explored
          { m with nodes_generated := m.nodes_generated + 1 } with
      | none => none
      | some (((result, newBound), explored, m), childCuts) =>
        match result with
        | some sol =>
          some (((some sol, 0), hsRemove explored node.state, m),
            cuts ++ childCuts)
        | none =>
          srLoopI node recurI rest
            (if newBound < minB then newBound else minB) explored m
            (cuts ++ childCuts)

/-- Instrumented twin of `searchRecursive`: records the `f`-value each
time the `f > bound` cut fires. -/
def searchRecursiveI {S : Type} [DecidableEq S] (p : Problem S) :
    Nat → Node S → Nat → List S → Metrics →
      Option (((Option (List Nat) × Nat) × List S × Metrics) × List Nat)
  | 0, _, _, _, _ => none
  | fuel + 1, node, bound, explored, m =>
    let m := { m with nodes_visited := m.nodes_visited + 1 }
    let f := node.path_cost + p.heuristic node.state
    if f > bound then some (((none, f), explored, m), [f])
    else if p.is_goal node.state then
      some (((some node.extract_solution, 0), explored, m), [])
    else
      srLoopI node (fun n ex mm => searchRecursiveI p fuel n bound ex mm)
        (p.successors node.state) usizeMAX (hsInsert explored node.state) m []

/-!
## Benchmark runner: per-task timeout protocol
(src/benchmarking/runner.rs, `execute_with_timeout`)

The worker thread, the channel and the clock are abstracted into the
outcome of the single `rx.recv_timeout(timeout_duration)` call: the
worker's result arrived in time, the timeout expired, or the channel
failed (disconnection).  `sharedSnapshot` is the value read from the
shared-metrics object at expiry; `direct` is the result of the
no-timeout path `execute_algorithm`. -/

/-- The three outcomes of `rx.recv_timeout`. -/
inductive RecvOutcome where
  | ok (r : SearchResult)
  | timeout
  | disconnected
deriving DecidableEq

/-- `BenchmarkRunner::execute_with_timeout`, returning the result and the
optional error message. -/
def execute_with_timeout (timeout_secs : Nat) (recv : RecvOutcome)
    (sharedSnapshot : Metrics) (direct : SearchResult) :
    SearchResult × Option String :=
  if timeout_secs > 0 then
    match recv with
    | .ok r => (r, none)
    | .timeout =>
      ({ solution := none, metrics := sharedSnapshot, status := 1 },
        some ("Timeout apres " ++ toString timeout_secs ++ " secondes"))
    | .disconnected =>
      ({ solution := none, metrics := Metrics.default, status := 2 },
        some "Erreur de communication")
  else (direct, none)

/-!
## Result aggregation (src/benchmarking/metrics.rs) -/

/-- `BenchmarkResult`.  The average fields of the aggregation are `f64`
in the source; sums and divisions of the aggregation are modelled over
`ℚ` (`time_ms` is the integer milliseconds value, see above). -/
structure BenchmarkResult where
  algorithm : String
  problem : String
  problem_size : Nat
  instance_id : Nat
  status : Nat
  metrics : Metrics
  timestamp : String
  initial_state : Option String
  error : Option String
deriving DecidableEq

/-- `AggregatedResults`. -/
structure AggregatedResults where
  algorithm : String
  problem : String
  problem_size : Nat
  total_instances : Nat
  successful_instances : Nat
  avg_time_ms : ℚ
  avg_memory_kb : ℚ
  avg_nodes_visited : ℚ
  avg_nodes_generated : ℚ
  avg_solution_length : ℚ
  avg_ebf : ℚ
deriving DecidableEq

/-- `AggregatedResults::from_results`.  `results[0]` panics on an empty
slice, modelled by `none`; `ebf` abstracts
`Metrics::effective_branching_factor`, whose non-trivial branch is a
floating-point `powf` (it is never evaluated by the claims under
study). -/
def from_results (ebf : Metrics → ℚ) (results : List BenchmarkResult) :
    Option AggregatedResults :=
  let total := results.length
  let successful := (results.filter (fun r => r.status == 0)).length
  let successful_results := results.filter (fun r => r.status == 0)
  match results with
  | [] => none
  | r0 :: _ =>
    if successful_results.isEmpty then
      some { algorithm := r0.algorithm
             problem := r0.problem
             problem_size := r0.problem_size
             total_instances := total
             successful_instances := 0
             avg_time_ms := 0
             avg_memory_kb := 0
             avg_nodes_visited := 0
             avg_nodes_generated := 0
             avg_solution_length := 0
             avg_ebf := 0 }
    else
      let n : ℚ := successful_results.length
      some { algorithm := r0.algorithm
             problem := r0.problem
             problem_size := r0.problem_size
             total_instances := total
             successful_instances := successful
             avg_time_ms := (successful_results.map (fun r => (r.metrics.time_ms : ℚ))).sum / n
             avg_memory_kb := (successful_results.map (fun r => (r.metrics.memory_kb : ℚ))).sum / n
             avg_nodes_visited := (successful_results.map (fun r => (r.metrics.nodes_visited : ℚ))).sum / n
             avg_nodes_generated := (successful_results.map (fun r => (r.metrics.nodes_generated : ℚ))).sum / n
             avg_solution_length := (successful_results.map (fun r => (r.metrics.solution_length : ℚ))).sum / n
             avg_ebf := (successful_results.map (fun r => ebf r.metrics)).sum / n }

/-!
## Reachability, distance and the BFS loop invariant (towards C2) -/

/-- `ReachN p d s` : `s` is reachable from the initial state in exactly
`d` successor steps. -/
def ReachN {S : Type} (p : Problem S) : Nat → S → Prop
  | 0, s => s = p.initial_state
  | d + 1, s => ∃ t c, ReachN p d t ∧ (s, c) ∈ p.successors t

/-- `StepN p d s t` : `t` is reachable from `s` in exactly `d` successor
steps. -/
def StepN {S : Type} (p : Problem S) : Nat → S → S → Prop
  | 0, s, t => s = t
  | d + 1, s, t => ∃ u c, StepN p d s u ∧ (t, c) ∈ p.successors u

/-- The successor graph has no directed cycle. -/
def Acyclic {S : Type} (p : Problem S) : Prop :=
  ∀ (s : S) (d : Nat), 0 < d → ¬ StepN p d s s

/-- The invariant of the BFS loop, over the frontier `F` and the
explored set `E`:
* the initial state has been seen;
* no state is recorded twice across `E` and the frontier;
* every frontier node's `depth` is the least step count reaching its
  state;
* frontier depths are nondecreasing and span at most two levels;
* every successor of an explored state has been seen;
* every state whose least distance is at most the head's depth has been
  seen;
* no explored state is a goal;
* every frontier node's extracted solution has length `depth`. -/
structure BFSInv {S : Type} (p : Problem S) (F : List (Node S))
    (E : List S) : Prop where
  init_seen : p.initial_state ∈ E ∨ p.initial_state ∈ F.map Node.state
  nodup : (E ++ F.map Node.state).Nodup
  tight : ∀ n ∈ F, IsLeast {d | ReachN p d n.state} n.depth
  levels : F.Pairwise (fun a b => a.depth ≤ b.depth ∧ b.depth ≤ a.depth + 1)
  closure : ∀ s ∈ E, ∀ sc ∈ p.successors s,
    sc.1 ∈ E ∨ sc.1 ∈ F.map Node.state
  complete : ∀ n0, F.head? = some n0 → ∀ s d,
    IsLeast {d | ReachN p d s} d → d ≤ n0.depth →
    s ∈ E ∨ s ∈ F.map Node.state
  no_goal : ∀ s ∈ E, p.is_goal s = false
  sol_len : ∀ n ∈ F, n.extract_solution.length = n.depth

/-- The two-successor problem over the finite state type `Fin 3`, used to
instantiate the BFS optimality theorem: state 0 has the two unit-cost
successors 1 and 2, and state 1 is the goal. -/
def finChainProblem : Problem (Fin 3) :=
  { initial_state := 0
    is_goal := fun s => s == 1
    successors := fun s => if s = 0 then [(1, 1), (2, 1)] else []
    heuristic := fun _ => 0
    stateSize := 8 }

/-- A concrete benchmark record with status 2 (no solution), used to
instantiate the aggregation theorem. -/
def failedRecord : BenchmarkResult :=
  { algorithm := "BFS", problem := "g", problem_size := 1, instance_id := 0
    status := 2, metrics := Metrics.default, timestamp := "t"
    initial_state := none, error := none }

/-!
## Theorems
-/

theorem mkChain_foldl {S : Type} (n : Node S) (steps : List (S × Nat × Nat)) :
    (steps.foldl (fun n st => n.child st.1 st.2.1 st.2.2) n).path_cost
        = n.path_cost + (steps.map (fun st => st.2.2)).sum ∧
      (steps.foldl (fun n st => n.child st.1 st.2.1 st.2.2) n).depth
        = n.depth + steps.length := by
  induction steps generalizing n with
  | nil => simp
  | cons st rest ih =>
    have h := ih (n.child st.1 st.2.1 st.2.2)
    simp only [List.foldl_cons, List.map_cons, List.sum_cons, List.length_cons]
    constructor
    · rw [h.1]; simp [Node.child, Node.path_cost]; ring
    · rw [h.2]; simp [Node.child, Node.depth]; ring

theorem extract_solution_child {S : Type} (n : Node S) (s : S) (a c : Nat) :
    (n.child s a c).extract_solution = n.extract_solution ++ [a] := by
  simp [Node.extract_solution, Node.child, Node.collectActions]

theorem extract_solution_chain {S : Type} (n : Node S)
    (steps : List (S × Nat × Nat)) :
    (steps.foldl (fun n st => n.child st.1 st.2.1 st.2.2) n).extract_solution
      = n.extract_solution ++ steps.map (fun st => st.2.1) := by
  induction steps generalizing n with
  | nil => simp
  | cons st rest ih =>
    simp only [List.foldl_cons, List.map_cons]
    rw [ih, extract_solution_child]
    simp

/-- C3: for every node built by `Node::new` followed by any sequence of
`Node::child` calls, `path_cost` is the sum of the step costs passed along
the chain and `depth` is the chain length; `Node::new` yields cost 0,
depth 0, no parent and no action. -/
theorem node_invariant_path_cost_depth {S : Type} (root : S)
    (steps : List (S × Nat × Nat)) :
    (mkChain root steps).path_cost = (steps.map (fun st => st.2.2)).sum ∧
      (mkChain root steps).depth = steps.length ∧
      (Node.new root).path_cost = 0 ∧ (Node.new root).depth = 0 ∧
      (Node.new root).parent = none ∧ (Node.new root).action = none := by
  have h := mkChain_foldl (Node.new root) steps
  refine ⟨?_, ?_, rfl, rfl, rfl, rfl⟩
  · simpa [mkChain, Node.new, Node.path_cost] using h.1
  · simpa [mkChain, Node.new, Node.depth] using h.2

/-- C4: a node reached by `d` `child` steps from a root yields, through
`extract_solution`, exactly the `d` recorded actions in root-to-goal
order; on a root node the result is the empty sequence. -/
theorem extract_solution_spec {S : Type} (root : S)
    (steps : List (S × Nat × Nat)) :
    (mkChain root steps).extract_solution = steps.map (fun st => st.2.1) ∧
      (mkChain root steps).extract_solution.length = (mkChain root steps).depth ∧
      (Node.new root).extract_solution = [] := by
  have h := extract_solution_chain (Node.new root) steps
  have hroot : (Node.new root).extract_solution = ([] : List Nat) := rfl
  have h1 : (mkChain root steps).extract_solution
      = steps.map (fun st => st.2.1) := by
    simpa [mkChain, hroot] using h
  refine ⟨h1, ?_, hroot⟩
  rw [h1]
  rw [show (mkChain root steps).depth = steps.length from by
    simpa [mkChain, Node.new, Node.depth] using (mkChain_foldl (Node.new root) steps).2]
  simp

/-- C6 counterexample: `increment_generated` on a record whose `time_ms`
is 0, at elapsed time 5, leaves `time_ms` at 0 instead of refreshing it
to 5 — so not every mutation refreshes `time_ms`. -/
theorem shared_metrics_time_refresh_cex :
    (SharedMetrics.increment_generated Metrics.default 5).time_ms = 0 ∧
      (0 : Nat) ≠ 5 := by
  exact ⟨rfl, by decide⟩

/-- C6 (amended): `update` and `increment_visited` refresh `time_ms` to
the elapsed time; `increment_generated`, `update_max_frontier`,
`set_memory_kb` and `set_solution_length` leave `time_ms` unchanged. -/
theorem shared_metrics_time_refresh (m : Metrics) (now : Nat)
    (f : Metrics → Metrics) (k : Nat) :
    (SharedMetrics.update m now f).time_ms = now ∧
      (SharedMetrics.increment_visited m now).time_ms = now ∧
      (SharedMetrics.increment_generated m now).time_ms = m.time_ms ∧
      (SharedMetrics.update_max_frontier m now k).time_ms = m.time_ms ∧
      (SharedMetrics.set_memory_kb m now k).time_ms = m.time_ms ∧
      (SharedMetrics.set_solution_length m now k).time_ms = m.time_ms :=
  ⟨rfl, rfl, rfl, rfl, rfl, rfl⟩

theorem applyOps_visited_count (m : Metrics) (ops : List MetricOp) :
    (applyOps m ops).nodes_visited
      = m.nodes_visited + (ops.countP MetricOp.isIncVisited) := by
  induction ops generalizing m with
  | nil => simp [applyOps]
  | cons op rest ih =>
    rw [applyOps, List.foldl_cons, ← applyOps, ih]
    cases op <;>
      simp [applyOp, SharedMetrics.increment_visited,
        SharedMetrics.increment_generated, SharedMetrics.update_max_frontier,
        SharedMetrics.set_memory_kb, SharedMetrics.set_solution_length,
        List.countP_cons, MetricOp.isIncVisited] <;> omega

/-- C9: under the mutex, every interleaving of mutations is a sequential
fold of atomic operations; `nodes_visited` after any interleaving equals
its initial value plus the number of `increment_visited` calls — in
particular `N` concurrent callers each invoking `increment_visited` once
on a fresh record (any interleaving is the list `replicate N`, up to the
observed clock values) yield `nodes_visited = N`, with no lost update. -/
theorem shared_metrics_no_lost_updates :
    (∀ (m : Metrics) (ops : List MetricOp),
        (applyOps m ops).nodes_visited
          = m.nodes_visited + ops.countP MetricOp.isIncVisited) ∧
      ∀ (nows : List Nat),
        (applyOps Metrics.default (nows.map MetricOp.incVisited)).nodes_visited
          = nows.length := by
  refine ⟨applyOps_visited_count, fun nows => ?_⟩
  rw [applyOps_visited_count]
  simp [Metrics.default, List.countP_map, MetricOp.isIncVisited,
    Function.comp_def, List.countP_true]

/-!
## Characterisation of the successor loops (towards C1 and C2) -/

theorem bfsExpand_spec {S : Type} [DecidableEq S] (u : Node S) (E : List S)
    (succs : List (S × Nat)) (F : List (Node S)) (m : Metrics) :
    ∃ cs : List (Node S),
      (bfsExpand u E succs F m).1 = F ++ cs ∧
      (bfsExpand u E succs F m).2
        = { m with nodes_generated := m.nodes_generated + cs.length } ∧
      ∀ j (h : j < cs.length), ∃ s c,
        (s, c) ∈ succs ∧ s ∉ E ∧ s ∉ (F ++ cs.take j).map Node.state ∧
        cs.get ⟨j, h⟩ = u.child s (m.nodes_generated + j) c := by
  induction succs generalizing F m with
  | nil => exact ⟨[], by simp [bfsExpand], by simp [bfsExpand], by simp⟩
  | cons sc rest ih =>
    obtain ⟨s, c⟩ := sc
    by_cases hadd : s ∉ E ∧ s ∉ F.map Node.state
    · obtain ⟨cs', h1, h2, h3⟩ :=
        ih (F ++ [u.child s m.nodes_generated c])
          { m with nodes_generated := m.nodes_generated + 1 }
      refine ⟨u.child s m.nodes_generated c :: cs', ?_, ?_, ?_⟩
      · rw [bfsExpand, if_pos hadd, h1]; simp
      · rw [bfsExpand, if_pos hadd, h2]
        simp only [List.length_cons]
        congr 1
        omega
      · intro j hj
        match j, hj with
        | 0, _ =>
          exact ⟨s, c, by simp, hadd.1, by simpa using hadd.2, by simp⟩
        | j' + 1, hj =>
          obtain ⟨s', c', hmem, hE, hF, heq⟩ := h3 j' (by simpa using hj)
          refine ⟨s', c', by simp [hmem], hE, ?_, ?_⟩
          · simpa [List.take_succ_cons, List.append_assoc] using hF
          · simpa [Nat.add_assoc, Nat.add_comm 1 j'] using heq
    · obtain ⟨cs', h1, h2, h3⟩ := ih F m
      refine ⟨cs', ?_, ?_, ?_⟩
      · rw [bfsExpand, if_neg hadd]; exact h1
      · rw [bfsExpand, if_neg hadd]; exact h2
      · intro j hj
        obtain ⟨s', c', hmem, hE, hF, heq⟩ := h3 j hj
        exact ⟨s', c', by simp [hmem], hE, hF, heq⟩

theorem dfsExpand_spec {S : Type} [DecidableEq S] (u : Node S) (E : List S)
    (succs : List (S × Nat)) (F : List (Node S)) (m : Metrics) :
    ∃ cs : List (Node S),
      (dfsExpand u E succs F m).1 = cs.reverse ++ F ∧
      (dfsExpand u E succs F m).2
        = { m with nodes_generated := m.nodes_generated + cs.length } ∧
      ∀ j (h : j < cs.length), ∃ s c,
        (s, c) ∈ succs ∧ s ∉ E ∧
        cs.get ⟨j, h⟩ = u.child s (m.nodes_generated + j) c := by
  induction succs generalizing F m with
  | nil => exact ⟨[], by simp [dfsExpand], by simp [dfsExpand], by simp⟩
  | cons sc rest ih =>
    obtain ⟨s, c⟩ := sc
    by_cases hadd : s ∉ E
    · obtain ⟨cs', h1, h2, h3⟩ :=
        ih (u.child s m.nodes_generated c :: F)
          { m with nodes_generated := m.nodes_generated + 1 }
      refine ⟨u.child s m.nodes_generated c :: cs', ?_, ?_, ?_⟩
      · rw [dfsExpand, if_pos hadd, h1]; simp
      · rw [dfsExpand, if_pos hadd, h2]
        simp only [List.length_cons]
        congr 1
        omega
      · intro j hj
        match j, hj with
        | 0, _ => exact ⟨s, c, by simp, hadd, by simp⟩
        | j' + 1, hj =>
          obtain ⟨s', c', hmem, hE, heq⟩ := h3 j' (by simpa using hj)
          exact ⟨s', c', by simp [hmem], hE,
            by simpa [Nat.add_assoc, Nat.add_comm 1 j'] using heq⟩
    · obtain ⟨cs', h1, h2, h3⟩ := ih F m
      refine ⟨cs', ?_, ?_, ?_⟩
      · rw [dfsExpand, if_neg hadd]; exact h1
      · rw [dfsExpand, if_neg hadd]; exact h2
      · intro j hj
        obtain ⟨s', c', hmem, hE, heq⟩ := h3 j hj
        exact ⟨s', c', by simp [hmem], hE, heq⟩

theorem astarExpand_spec {S : Type} [DecidableEq S] (p : Problem S)
    (u : Node S) (succs : List (S × Nat)) (F : List (AStarNode S))
    (g : List (S × Nat)) (m : Metrics) :
    ∃ cs : List (AStarNode S),
      (astarExpand p u succs F g m).1 = F ++ cs ∧
      (astarExpand p u succs F g m).2.2
        = { m with nodes_generated := m.nodes_generated + cs.length } ∧
      ∀ j (h : j < cs.length), ∃ s c,
        (s, c) ∈ succs ∧
        (cs.get ⟨j, h⟩).node = u.child s (m.nodes_generated + j) c := by
  induction succs generalizing F g m with
  | nil => exact ⟨[], by simp [astarExpand], by simp [astarExpand], by simp⟩
  | cons sc rest ih =>
    obtain ⟨s, c⟩ := sc
    by_cases hskip : gScoreSkip g s (u.path_cost + c) = true
    · obtain ⟨cs', h1, h2, h3⟩ := ih F g m
      refine ⟨cs', ?_, ?_, ?_⟩
      · rw [astarExpand, if_pos hskip]; exact h1
      · rw [astarExpand, if_pos hskip]; exact h2
      · intro j hj
        obtain ⟨s', c', hmem, heq⟩ := h3 j hj
        exact ⟨s', c', by simp [hmem], heq⟩
    · obtain ⟨cs', h1, h2, h3⟩ :=
        ih (F ++ [{ node := u.child s m.nodes_generated c
                    f_score := u.path_cost + c + p.heuristic s }])
          (gsInsert g s (u.path_cost + c))
          { m with nodes_generated := m.nodes_generated + 1 }
      refine ⟨{ node := u.child s m.nodes_generated c
                f_score := u.path_cost + c + p.heuristic s } :: cs', ?_, ?_, ?_⟩
      · rw [astarExpand, if_neg hskip, h1]; simp
      · rw [astarExpand, if_neg hskip, h2]
        simp only [List.length_cons]
        congr 1
        omega
      · intro j hj
        match j, hj with
        | 0, _ => exact ⟨s, c, by simp, by simp⟩
        | j' + 1, hj =>
          obtain ⟨s', c', hmem, heq⟩ := h3 j' (by simpa using hj)
          exact ⟨s', c', by simp [hmem],
            by simpa [Nat.add_assoc, Nat.add_comm 1 j'] using heq⟩

/-- C1 counterexample: on `twoEdgeProblem`, BFS reaches the goal through
the successor edge of index 0 (the pair `(1, 1)` is entry 0 of
`successors 0`), yet the returned solution is `[1]` — the value of the
`nodes_generated` counter when the child was built — and not `[0]`. -/
theorem bfs_action_not_edge_index_cex :
    (BFS.search twoEdgeProblem 10).map (fun r => r.solution)
        = some (some [1]) ∧
      (twoEdgeProblem.successors twoEdgeProblem.initial_state).take 1
        = [(1, 1)] ∧
      some (some [1]) ≠ some (some [0]) := by
  refine ⟨by decide, by decide, by decide⟩

theorem bfsLoop_solution {S : Type} [DecidableEq S] (p : Problem S) :
    ∀ (fuel : Nat) (F : List (Node S)) (E : List S) (m : Metrics)
      (r : SearchResult),
      bfsLoop p fuel F E m = some r → r.status = 0 →
      ∃ n : Node S, p.is_goal n.state = true ∧
        r.solution = some n.extract_solution := by
  intro fuel
  induction fuel with
  | zero => intro F E m r h; exact absurd h (by simp [bfsLoop])
  | succ fuel ih =>
    intro F E m r h h0
    match F with
    | [] =>
      simp only [bfsLoop, Option.some_inj] at h
      subst h
      simp at h0
    | u :: rest =>
      rw [bfsLoop] at h
      by_cases hg : p.is_goal u.state = true
      · rw [if_pos hg, Option.some_inj] at h
        subst h
        exact ⟨u, hg, rfl⟩
      · rw [if_neg hg] at h
        exact ih _ _ _ r h h0

theorem dfsLoop_solution {S : Type} [DecidableEq S] (p : Problem S)
    (maxDepth : Option Nat) :
    ∀ (fuel : Nat) (F : List (Node S)) (E : List S) (m : Metrics)
      (r : SearchResult),
      dfsLoop p maxDepth fuel F E m = some r → r.status = 0 →
      ∃ n : Node S, p.is_goal n.state = true ∧
        r.solution = some n.extract_solution := by
  intro fuel
  induction fuel with
  | zero => intro F E m r h; exact absurd h (by simp [dfsLoop])
  | succ fuel ih =>
    intro F E m r h h0
    match F with
    | [] =>
      simp only [dfsLoop, Option.some_inj] at h
      subst h
      simp at h0
    | u :: rest =>
      rw [dfsLoop] at h
      by_cases hd : depthExceeds maxDepth u.depth = true
      · rw [if_pos hd] at h
        exact ih _ _ _ r h h0
      · rw [if_neg hd] at h
        by_cases hg : p.is_goal u.state = true
        · rw [if_pos hg, Option.some_inj] at h
          subst h
          exact ⟨u, hg, rfl⟩
        · rw [if_neg hg] at h
          exact ih _ _ _ r h h0

theorem idGo_solution {S : Type} [DecidableEq S] (p : Problem S)
    (dfsFuel : Nat) :
    ∀ (remaining depth : Nat) (total : Metrics) (r : SearchResult),
      idGo p dfsFuel remaining depth total = some r → r.status = 0 →
      ∃ n : Node S, p.is_goal n.state = true ∧
        r.solution = some n.extract_solution := by
  intro remaining
  induction remaining with
  | zero =>
    intro depth total r h h0
    simp only [idGo, Option.some_inj] at h
    subst h
    simp at h0
  | succ remaining ih =>
    intro depth total r h h0
    rw [idGo] at h
    cases hdfs : DFS.search p (some depth) dfsFuel with
    | none => rw [hdfs] at h; exact absurd h (by simp)
    | some result =>
      rw [hdfs] at h
      simp only at h
      by_cases hst : result.status = 0
      · rw [if_pos hst, Option.some_inj] at h
        subst h
        obtain ⟨n, hgn, hsoln⟩ := dfsLoop_solution p (some depth) dfsFuel
          [Node.new p.initial_state] []
          { Metrics.default with nodes_generated := 1 } result hdfs hst
        exact ⟨n, hgn, hsoln⟩
      · rw [if_neg hst] at h
        exact ih _ _ r h h0

theorem srLoop_solution {S : Type} [DecidableEq S] (p : Problem S)
    (node : Node S)
    (recur : Node S → List S → Metrics →
      Option ((Option (List Nat) × Nat) × List S × Metrics))
    (hrec : ∀ n ex mm out, recur n ex mm = some out →
      ∀ sol, out.1.1 = some sol →
      ∃ gnode : Node S, p.is_goal gnode.state = true ∧
        sol = gnode.extract_solution) :
    ∀ (rest : List (S × Nat)) (minB : Nat) (ex : List S) (m : Metrics)
      (out : (Option (List Nat) × Nat) × List S × Metrics),
      srLoop node recur rest minB ex m = some out →
      ∀ sol, out.1.1 = some sol →
      ∃ gnode : Node S, p.is_goal gnode.state = true ∧
        sol = gnode.extract_solution := by
  intro rest
  induction rest with
  | nil =>
    intro minB ex m out h sol hsol
    simp only [srLoop, Option.some_inj] at h
    subst h
    simp at hsol
  | cons sc rest ih =>
    obtain ⟨s, c⟩ := sc
    intro minB ex m out h sol hsol
    rw [srLoop] at h
    by_cases hmem : s ∈ ex
    · rw [if_pos hmem] at h
      exact ih minB ex m out h sol hsol
    · rw [if_neg hmem] at h
      cases hcall : recur (node.child s m.nodes_generated c) ex
          { m with nodes_generated := m.nodes_generated + 1 } with
      | none => rw [hcall] at h; exact absurd h (by simp)
      | some cres =>
        rw [hcall] at h
        obtain ⟨⟨cresult, newBound⟩, cex, cm⟩ := cres
        cases cresult with
        | some sol2 =>
          simp only [Option.some_inj] at h
          subst h
          simp only [Option.some_inj] at hsol
          subst hsol
          exact hrec _ _ _ _ hcall sol2 rfl
        | none =>
          simp only at h
          exact ih _ cex cm out h sol hsol

theorem searchRecursive_solution {S : Type} [DecidableEq S]
    (p : Problem S) :
    ∀ (fuel : Nat) (node : Node S) (bound : Nat) (ex : List S) (m : Metrics)
      (out : (Option (List Nat) × Nat) × List S × Metrics),
      searchRecursive p fuel node bound ex m = some out →
      ∀ sol, out.1.1 = some sol →
      ∃ gnode : Node S, p.is_goal gnode.state = true ∧
        sol = gnode.extract_solution := by
  intro fuel
  induction fuel with
  | zero =>
    intro node bound ex m out h
    exact absurd h (by simp [searchRecursive])
  | succ fuel ih =>
    intro node bound ex m out h sol hsol
    rw [searchRecursive] at h
    by_cases hcut : node.path_cost + p.heuristic node.state > bound
    · rw [if_pos hcut, Option.some_inj] at h
      subst h
      simp at hsol
    · rw [if_neg hcut] at h
      by_cases hgoal : p.is_goal node.state
      · rw [if_pos hgoal, Option.some_inj] at h
        subst h
        simp only [Option.some_inj] at hsol
        subst hsol
        exact ⟨node, hgoal, rfl⟩
      · rw [if_neg hgoal] at h
        exact srLoop_solution p node _
          (fun n ex2 mm out2 h2 => ih n bound ex2 mm out2 h2)
          (p.successors node.state) usizeMAX (hsInsert ex node.state)
          { m with nodes_visited := m.nodes_visited + 1 } out h sol hsol

theorem idastarLoop_solution {S : Type} [DecidableEq S] (p : Problem S)
    (maxBound recFuel : Nat) :
    ∀ (iterFuel bound : Nat) (m : Metrics) (r : SearchResult),
      idastarLoop p maxBound recFuel iterFuel bound m = some r →
      r.status = 0 →
      ∃ n : Node S, p.is_goal n.state = true ∧
        r.solution = some n.extract_solution := by
  intro iterFuel
  induction iterFuel with
  | zero => intro bound m r h; exact absurd h (by simp [idastarLoop])
  | succ iterFuel ih =>
    intro bound m r h h0
    rw [idastarLoop] at h
    cases hsr : searchRecursive p recFuel (Node.new p.initial_state) bound
        [] m with
    | none => rw [hsr] at h; exact absurd h (by simp)
    | some out =>
      rw [hsr] at h
      obtain ⟨⟨result, newBound⟩, explored, m2⟩ := out
      cases result with
      | some sol =>
        simp only [Option.some_inj] at h
        subst h
        obtain ⟨gnode, hg, hsol⟩ :=
          searchRecursive_solution p recFuel (Node.new p.initial_state)
            bound [] m _ hsr sol rfl
        exact ⟨gnode, hg, by rw [hsol]⟩
      | none =>
        simp only at h
        by_cases hstop : newBound = usizeMAX ∨ bound ≥ maxBound
        · rw [if_pos hstop, Option.some_inj] at h
          subst h
          simp at h0
        · rw [if_neg hstop] at h
          exact ih newBound m2 r h h0

theorem astarLoop_solution {S : Type} [DecidableEq S] (p : Problem S)
    (pop : List (AStarNode S) → Option (AStarNode S × List (AStarNode S))) :
    ∀ (fuel : Nat) (frontier : List (AStarNode S))
      (explored gScores : List (S × Nat)) (m : Metrics) (r : SearchResult),
      astarLoop p pop fuel frontier explored gScores m = some r →
      r.status = 0 →
      ∃ n : Node S, p.is_goal n.state = true ∧
        r.solution = some n.extract_solution := by
  intro fuel
  induction fuel with
  | zero =>
    intro frontier explored gScores m r h
    exact absurd h (by simp [astarLoop])
  | succ fuel ih =>
    intro frontier explored gScores m r h h0
    rw [astarLoop] at h
    cases hpop : pop frontier with
    | none =>
      rw [hpop] at h
      simp only [Option.some_inj] at h
      subst h
      simp at h0
    | some anfr =>
      rw [hpop] at h
      obtain ⟨an, fr⟩ := anfr
      simp only at h
      by_cases hg : p.is_goal an.node.state = true
      · rw [if_pos hg, Option.some_inj] at h
        subst h
        exact ⟨an.node, hg, rfl⟩
      · rw [if_neg hg] at h
        by_cases hmem : an.node.state ∈ explored.map Prod.fst
        · rw [if_pos hmem] at h
          exact ih fr explored gScores _ r h h0
        · rw [if_neg hmem] at h
          exact ih _ _ _ _ r h h0

/-- C1 (amended): in every expansion performed by the five search
algorithms, the `action` stored in a generated child is the value of the
running `nodes_generated` counter at the moment the child is built (the
counter starts at 1 and increases by one per generated node), not the
index of the successor edge — stated for BFS's, DFS's (hence Iterative
Deepening's) and A*'s successor loops and for IDA*'s recursive successor
loop `srLoop` (idastar.rs line 44); the root node has no action.
Consequently, on success each of the five algorithms returns exactly
`extract_solution` of a goal node — the sequence of these stored
counter-valued actions along its path in root-to-goal order (the
correspondence between `extract_solution` and the stored actions is the
C4 theorem `extract_solution_spec`). -/
theorem expansion_action_is_generated_counter {S : Type} [DecidableEq S] :
    (∀ (u : Node S) (E : List S) (succs : List (S × Nat))
        (F : List (Node S)) (m : Metrics),
      ∃ cs : List (Node S),
        (bfsExpand u E succs F m).1 = F ++ cs ∧
        (bfsExpand u E succs F m).2.nodes_generated
          = m.nodes_generated + cs.length ∧
        ∀ j (h : j < cs.length),
          (cs.get ⟨j, h⟩).action = some (m.nodes_generated + j)) ∧
    (∀ (u : Node S) (E : List S) (succs : List (S × Nat))
        (F : List (Node S)) (m : Metrics),
      ∃ cs : List (Node S),
        (dfsExpand u E succs F m).1 = cs.reverse ++ F ∧
        (dfsExpand u E succs F m).2.nodes_generated
          = m.nodes_generated + cs.length ∧
        ∀ j (h : j < cs.length),
          (cs.get ⟨j, h⟩).action = some (m.nodes_generated + j)) ∧
    (∀ (p : Problem S) (u : Node S) (succs : List (S × Nat))
        (F : List (AStarNode S)) (g : List (S × Nat)) (m : Metrics),
      ∃ cs : List (AStarNode S),
        (astarExpand p u succs F g m).1 = F ++ cs ∧
        (astarExpand p u succs F g m).2.2.nodes_generated
          = m.nodes_generated + cs.length ∧
        ∀ j (h : j < cs.length),
          (cs.get ⟨j, h⟩).node.action = some (m.nodes_generated + j)) ∧
    (∀ (node : Node S)
        (recur : Node S → List S → Metrics →
          Option ((Option (List Nat) × Nat) × List S × Metrics))
        (s : S) (c : Nat) (rest : List (S × Nat)) (minB : Nat)
        (ex : List S) (m : Metrics), s ∉ ex →
      (node.child s m.nodes_generated c).action = some m.nodes_generated ∧
      srLoop node recur ((s, c) :: rest) minB ex m
        = match recur (node.child s m.nodes_generated c) ex
            { m with nodes_generated := m.nodes_generated + 1 } with
          | none => none
          | some ((result, newBound), explored, m2) =>
            match result with
            | some sol => some ((some sol, 0), hsRemove explored node.state, m2)
            | none => srLoop node recur rest
                (if newBound < minB then newBound else minB) explored m2) ∧
    (∀ (p : Problem S) (fuel : Nat) (r : SearchResult),
      BFS.search p fuel = some r → r.status = 0 →
      ∃ n : Node S, p.is_goal n.state = true ∧
        r.solution = some n.extract_solution) ∧
    (∀ (p : Problem S) (maxDepth : Option Nat) (fuel : Nat)
        (r : SearchResult),
      DFS.search p maxDepth fuel = some r → r.status = 0 →
      ∃ n : Node S, p.is_goal n.state = true ∧
        r.solution = some n.extract_solution) ∧
    (∀ (p : Problem S) (maxDepth dfsFuel : Nat) (r : SearchResult),
      IterativeDeepening.search p maxDepth dfsFuel = some r →
      r.status = 0 →
      ∃ n : Node S, p.is_goal n.state = true ∧
        r.solution = some n.extract_solution) ∧
    (∀ (p : Problem S) (maxBound recFuel iterFuel : Nat) (r : SearchResult),
      IDAStar.search p maxBound recFuel iterFuel = some r → r.status = 0 →
      ∃ n : Node S, p.is_goal n.state = true ∧
        r.solution = some n.extract_solution) ∧
    (∀ (p : Problem S)
        (pop : List (AStarNode S) → Option (AStarNode S × List (AStarNode S)))
        (fuel : Nat) (r : SearchResult),
      AStar.search p pop fuel = some r → r.status = 0 →
      ∃ n : Node S, p.is_goal n.state = true ∧
        r.solution = some n.extract_solution) ∧
    (∀ s : S, (Node.new s).action = none) := by
  refine ⟨fun u E succs F m => ?_, fun u E succs F m => ?_,
    fun p u succs F g m => ?_,
    fun node recur s c rest minB ex m hmem =>
      ⟨rfl, by rw [srLoop, if_neg hmem]⟩,
    fun p fuel r h h0 => bfsLoop_solution p fuel _ _ _ r h h0,
    fun p maxDepth fuel r h h0 =>
      dfsLoop_solution p maxDepth fuel _ _ _ r h h0,
    fun p maxDepth dfsFuel r h h0 =>
      idGo_solution p dfsFuel (maxDepth + 1) 0 Metrics.default r h h0,
    fun p maxBound recFuel iterFuel r h h0 =>
      idastarLoop_solution p maxBound recFuel iterFuel
        (p.heuristic p.initial_state)
        { Metrics.default with nodes_generated := 1 } r h h0,
    fun p pop fuel r h h0 =>
      astarLoop_solution p pop fuel _ _ _ _ r h h0,
    fun s => rfl⟩
  · obtain ⟨cs, h1, h2, h3⟩ := bfsExpand_spec u E succs F m
    refine ⟨cs, h1, by rw [h2], fun j hj => ?_⟩
    obtain ⟨s, c, _, _, _, heq⟩ := h3 j hj
    rw [heq]; rfl
  · obtain ⟨cs, h1, h2, h3⟩ := dfsExpand_spec u E succs F m
    refine ⟨cs, h1, by rw [h2], fun j hj => ?_⟩
    obtain ⟨s, c, _, _, heq⟩ := h3 j hj
    rw [heq]; rfl
  · obtain ⟨cs, h1, h2, h3⟩ := astarExpand_spec p u succs F g m
    refine ⟨cs, h1, by rw [h2], fun j hj => ?_⟩
    obtain ⟨s, c, _, heq⟩ := h3 j hj
    rw [heq]; rfl

/-- Witness for the amended C1 theorem: instantiated on
`twoEdgeProblem`'s successor list at the root, from an empty frontier and
a counter at 1, the BFS successor loop generates two children and the
child of index 1 carries action `1 + 1 = 2`. -/
theorem expansion_action_is_generated_counter_witness :
    ∃ cs : List (Node Nat),
      (bfsExpand (Node.new 0) [0] [(1, 1), (2, 1)] []
          { Metrics.default with nodes_generated := 1 }).1 = [] ++ cs ∧
      (bfsExpand (Node.new 0) [0] [(1, 1), (2, 1)] []
          { Metrics.default with nodes_generated := 1 }).2.nodes_generated
        = 1 + cs.length ∧
      ∀ j (h : j < cs.length), (cs.get ⟨j, h⟩).action = some (1 + j) :=
  (expansion_action_is_generated_counter (S := Nat)).1
    (Node.new 0) [0] [(1, 1), (2, 1)] []
    { Metrics.default with nodes_generated := 1 }

theorem dfsMetricsList_succ {S : Type} [DecidableEq S] (p : Problem S)
    (dfsFuel lo n : Nat) :
    dfsMetricsList p dfsFuel lo (n + 1)
      = dfsMetricsAt p dfsFuel lo :: dfsMetricsList p dfsFuel (lo + 1) n := by
  simp only [dfsMetricsList, List.range_succ_eq_map, List.map_cons,
    List.map_map, Nat.add_zero]
  congr 1
  apply List.map_congr_left
  intro j _
  simp only [Function.comp_apply]
  congr 1
  omega

theorem foldl_accumulate_visited (l : List Metrics) (t : Metrics) :
    (l.foldl accumulateIteration t).nodes_visited
      = t.nodes_visited + (l.map Metrics.nodes_visited).sum := by
  induction l generalizing t with
  | nil => simp
  | cons x xs ih =>
    simp only [List.foldl_cons, List.map_cons, List.sum_cons, ih,
      accumulateIteration]
    omega

theorem foldl_accumulate_generated (l : List Metrics) (t : Metrics) :
    (l.foldl accumulateIteration t).nodes_generated
      = t.nodes_generated + (l.map Metrics.nodes_generated).sum := by
  induction l generalizing t with
  | nil => simp
  | cons x xs ih =>
    simp only [List.foldl_cons, List.map_cons, List.sum_cons, ih,
      accumulateIteration]
    omega

theorem foldl_accumulate_max (l : List Metrics) (t : Metrics) :
    (l.foldl accumulateIteration t).max_frontier_size
      = (l.map Metrics.max_frontier_size).foldl max t.max_frontier_size := by
  induction l generalizing t with
  | nil => simp
  | cons x xs ih =>
    simp only [List.foldl_cons, List.map_cons, ih, accumulateIteration]

theorem idGo_spec {S : Type} [DecidableEq S] (p : Problem S) (dfsFuel : Nat)
    (remaining : Nat) :
    ∀ (depth : Nat) (total : Metrics) (r : SearchResult),
    idGo p dfsFuel remaining depth total = some r →
    (∃ k < remaining,
      (∀ i < k, ∃ ri, DFS.search p (some (depth + i)) dfsFuel = some ri ∧
        ri.status ≠ 0) ∧
      ∃ rk, DFS.search p (some (depth + k)) dfsFuel = some rk ∧
        rk.status = 0 ∧ r.status = 0 ∧ r.solution = rk.solution ∧
        r.metrics
          = { (dfsMetricsList p dfsFuel depth (k + 1)).foldl
                accumulateIteration total with
              solution_length := rk.metrics.solution_length,
              memory_kb := rk.metrics.memory_kb }) ∨
    ((∀ i < remaining, ∃ ri, DFS.search p (some (depth + i)) dfsFuel = some ri ∧
        ri.status ≠ 0) ∧
      r.status = 2 ∧ r.solution = none ∧
      r.metrics
        = (dfsMetricsList p dfsFuel depth remaining).foldl
            accumulateIteration total) := by
  induction remaining with
  | zero =>
    intro depth total r h
    right
    simp only [idGo, Option.some_inj] at h
    subst h
    exact ⟨fun i hi => absurd hi (Nat.not_lt_zero i), rfl, rfl,
      by simp [dfsMetricsList]⟩
  | succ remaining ih =>
    intro depth total r h
    rw [idGo] at h
    cases hdfs : DFS.search p (some depth) dfsFuel with
    | none => rw [hdfs] at h; exact absurd h (by simp)
    | some result =>
      rw [hdfs] at h
      simp only at h
      have hAt : dfsMetricsAt p dfsFuel depth = result.metrics := by
        simp [dfsMetricsAt, hdfs]
      by_cases hst : result.status = 0
      · rw [if_pos hst, Option.some_inj] at h
        subst h
        left
        refine ⟨0, by omega, fun i hi => absurd hi (Nat.not_lt_zero i),
          result, by simpa using hdfs, hst, rfl, rfl, ?_⟩
        have hL : dfsMetricsList p dfsFuel depth (0 + 1)
            = [result.metrics] := by
          rw [dfsMetricsList_succ, hAt]
          simp [dfsMetricsList]
        rw [hL]
        rfl
      · rw [if_neg hst] at h
        rcases ih (depth + 1) (accumulateIteration total result.metrics) r h
          with ⟨k', hk', hfail, rk, hrk, hst0, hr0, hsol, hmet⟩ | hR
        · left
          refine ⟨k' + 1, by omega, ?_, rk, ?_, hst0, hr0, hsol, ?_⟩
          · intro i hi
            match i, hi with
            | 0, _ => exact ⟨result, by simpa using hdfs, hst⟩
            | i' + 1, hi =>
              obtain ⟨ri, hri, hsi⟩ := hfail i' (by omega)
              exact ⟨ri, by rw [show depth + (i' + 1) = depth + 1 + i' from by omega]; exact hri, hsi⟩
          · rw [show depth + (k' + 1) = depth + 1 + k' from by omega]
            exact hrk
          · rw [hmet]
            have hL : dfsMetricsList p dfsFuel depth (k' + 1 + 1)
                = dfsMetricsAt p dfsFuel depth
                  :: dfsMetricsList p dfsFuel (depth + 1) (k' + 1) :=
              dfsMetricsList_succ p dfsFuel depth (k' + 1)
            rw [hL, List.foldl_cons, hAt]
        · obtain ⟨hfail, hr2, hsol, hmet⟩ := hR
          right
          refine ⟨?_, hr2, hsol, ?_⟩
          · intro i hi
            match i, hi with
            | 0, _ => exact ⟨result, by simpa using hdfs, hst⟩
            | i' + 1, hi =>
              obtain ⟨ri, hri, hsi⟩ := hfail i' (by omega)
              exact ⟨ri, by rw [show depth + (i' + 1) = depth + 1 + i' from by omega]; exact hri, hsi⟩
          · rw [hmet]
            have hL : dfsMetricsList p dfsFuel depth (remaining + 1)
                = dfsMetricsAt p dfsFuel depth
                  :: dfsMetricsList p dfsFuel (depth + 1) remaining :=
              dfsMetricsList_succ p dfsFuel depth remaining
            rw [hL, List.foldl_cons, hAt]

/-- C5 (amended): when Iterative Deepening returns, it ran the DFS
iterations with bounds `0, 1, …, k` — where iteration `k` is either the
first success or the final bound `max_depth` — its `nodes_visited` and
`nodes_generated` are the sums of the corresponding DFS-iteration values,
its `max_frontier_size` is the **maximum** (not the sum) of the
per-iteration values, and on success the solution of the succeeding DFS
iteration is returned unmodified. -/
theorem id_metrics_aggregation {S : Type} [DecidableEq S] (p : Problem S)
    (maxDepth dfsFuel : Nat) (r : SearchResult)
    (h : IterativeDeepening.search p maxDepth dfsFuel = some r) :
    ∃ k ≤ maxDepth,
      (∀ i < k, ∃ ri, DFS.search p (some i) dfsFuel = some ri ∧
        ri.status ≠ 0) ∧
      (∃ rk, DFS.search p (some k) dfsFuel = some rk ∧
        ((rk.status = 0 ∧ r.status = 0 ∧ r.solution = rk.solution ∧
          r.metrics.solution_length = rk.metrics.solution_length ∧
          r.metrics.memory_kb = rk.metrics.memory_kb) ∨
         (rk.status ≠ 0 ∧ k = maxDepth ∧ r.status = 2 ∧
          r.solution = none))) ∧
      r.metrics.nodes_visited
        = ((dfsMetricsList p dfsFuel 0 (k + 1)).map Metrics.nodes_visited).sum ∧
      r.metrics.nodes_generated
        = ((dfsMetricsList p dfsFuel 0 (k + 1)).map Metrics.nodes_generated).sum ∧
      r.metrics.max_frontier_size
        = ((dfsMetricsList p dfsFuel 0 (k + 1)).map
            Metrics.max_frontier_size).foldl max 0 := by
  rcases idGo_spec p dfsFuel (maxDepth + 1) 0 Metrics.default r h
    with ⟨k, hk, hfail, rk, hrk, hst0, hr0, hsol, hmet⟩ | ⟨hfail, hr2, hsol, hmet⟩
  · refine ⟨k, by omega, by simpa using hfail, ⟨rk, by simpa using hrk,
      Or.inl ⟨hst0, hr0, hsol, by rw [hmet], by rw [hmet]⟩⟩, ?_, ?_, ?_⟩
    · rw [hmet]
      simpa [Metrics.default] using
        foldl_accumulate_visited (dfsMetricsList p dfsFuel 0 (k + 1))
          Metrics.default
    · rw [hmet]
      simpa [Metrics.default] using
        foldl_accumulate_generated (dfsMetricsList p dfsFuel 0 (k + 1))
          Metrics.default
    · rw [hmet]
      simpa [Metrics.default] using
        foldl_accumulate_max (dfsMetricsList p dfsFuel 0 (k + 1))
          Metrics.default
  · obtain ⟨rk, hrk, hskt⟩ := hfail maxDepth (by omega)
    refine ⟨maxDepth, le_refl _, ?_, ⟨rk, by simpa using hrk,
      Or.inr ⟨hskt, rfl, hr2, hsol⟩⟩, ?_, ?_, ?_⟩
    · intro i hi
      exact (by simpa using hfail i (by omega) :)
    · rw [hmet]
      simpa [Metrics.default] using
        foldl_accumulate_visited (dfsMetricsList p dfsFuel 0 (maxDepth + 1))
          Metrics.default
    · rw [hmet]
      simpa [Metrics.default] using
        foldl_accumulate_generated (dfsMetricsList p dfsFuel 0 (maxDepth + 1))
          Metrics.default
    · rw [hmet]
      simpa [Metrics.default] using
        foldl_accumulate_max (dfsMetricsList p dfsFuel 0 (maxDepth + 1))
          Metrics.default

/-- C5 counterexample: on `twoEdgeProblem` with `max_depth = 1`,
Iterative Deepening runs the DFS iterations with bounds 0 (failure) and 1
(success), whose `max_frontier_size` values are 2 and 2; the returned
`max_frontier_size` is their maximum 2, not their sum 4. -/
theorem id_max_frontier_not_sum_cex :
    (IterativeDeepening.search twoEdgeProblem 1 10).map
        (fun r => (r.status, r.metrics.max_frontier_size)) = some (0, 2) ∧
      (DFS.search twoEdgeProblem (some 0) 10).map
        (fun r => (r.status, r.metrics.max_frontier_size)) = some (2, 2) ∧
      (DFS.search twoEdgeProblem (some 1) 10).map
        (fun r => (r.status, r.metrics.max_frontier_size)) = some (0, 2) ∧
      (2 : Nat) ≠ 2 + 2 := by
  exact ⟨by decide, by decide, by decide, by decide⟩

/-- Witness for the amended C5 theorem, on the run of Iterative
Deepening over `twoEdgeProblem` with `max_depth = 1`. -/
theorem id_metrics_aggregation_witness :
    ∃ k ≤ 1,
      (∀ i < k, ∃ ri, DFS.search twoEdgeProblem (some i) 10 = some ri ∧
        ri.status ≠ 0) ∧
      (∃ rk, DFS.search twoEdgeProblem (some k) 10 = some rk ∧
        ((rk.status = 0 ∧ (0 : Nat) = 0 ∧ some [1] = rk.solution ∧
          (1 : Nat) = rk.metrics.solution_length ∧
          (0 : Nat) = rk.metrics.memory_kb) ∨
         (rk.status ≠ 0 ∧ k = 1 ∧ (0 : Nat) = 2 ∧
          (some [1] : Option (List Nat)) = none))) ∧
      (6 : Nat)
        = ((dfsMetricsList twoEdgeProblem 10 0 (k + 1)).map
            Metrics.nodes_visited).sum ∧
      (6 : Nat)
        = ((dfsMetricsList twoEdgeProblem 10 0 (k + 1)).map
            Metrics.nodes_generated).sum ∧
      (2 : Nat)
        = ((dfsMetricsList twoEdgeProblem 10 0 (k + 1)).map
            Metrics.max_frontier_size).foldl max 0 :=
  id_metrics_aggregation twoEdgeProblem 1 10
    { solution := some [1]
      metrics := { time_ms := 0, memory_kb := 0, nodes_visited := 6,
                   nodes_generated := 6, max_frontier_size := 2,
                   solution_length := 1 }
      status := 0 }
    (by decide)

theorem if_lt_eq_min (a b : Nat) : (if a < b then a else b) = min a b := by
  split
  · omega
  · omega

theorem foldr_min_le (l : List Nat) (a : Nat) : l.foldr min a ≤ a := by
  induction l with
  | nil => exact le_refl a
  | cons c cs ih => exact le_trans (Nat.min_le_right c _) ih

theorem foldr_min_pull (l : List Nat) (a X : Nat) :
    l.foldr min (min a X) = min a (l.foldr min X) := by
  induction l with
  | nil => rfl
  | cons c cs ih =>
    simp only [List.foldr_cons, ih]
    omega

theorem foldr_min_seed (l : List Nat) (a X : Nat) (h : a ≤ X) :
    l.foldr min a = min a (l.foldr min X) := by
  induction l with
  | nil => simp [Nat.min_eq_left h]
  | cons c cs ih =>
    simp only [List.foldr_cons, ih]
    omega

theorem srLoopI_bound {S : Type} [DecidableEq S] (node : Node S) (bound : Nat)
    (recurI : Node S → List S → Metrics →
      Option (((Option (List Nat) × Nat) × List S × Metrics) × List Nat))
    (hrec : ∀ n ex mm out, recurI n ex mm = some out → out.1.1.1 = none →
      (∀ x ∈ out.2, bound < x) ∧
      (out.1.1.2 = out.2.foldr min usizeMAX ∨ out.2 = [out.1.1.2])) :
    ∀ (rest : List (S × Nat)) (minB : Nat) (ex : List S) (m : Metrics)
      (cuts : List Nat)
      (out : ((Option (List Nat) × Nat) × List S × Metrics) × List Nat),
      srLoopI node recurI rest minB ex m cuts = some out →
      out.1.1.1 = none →
      (∀ x ∈ cuts, bound < x) →
      minB = cuts.foldr min usizeMAX →
      (∀ x ∈ out.2, bound < x) ∧ out.1.1.2 = out.2.foldr min usizeMAX := by
  intro rest
  induction rest with
  | nil =>
    intro minB ex m cuts out hout hres hc hmin
    simp only [srLoopI, Option.some_inj] at hout
    subst hout
    exact ⟨hc, hmin⟩
  | cons sc rest ih =>
    obtain ⟨s, c⟩ := sc
    intro minB ex m cuts out hout hres hc hmin
    rw [srLoopI] at hout
    by_cases hmem : s ∈ ex
    · rw [if_pos hmem] at hout
      exact ih minB ex m cuts out hout hres hc hmin
    · rw [if_neg hmem] at hout
      cases hcall : recurI (node.child s m.nodes_generated c) ex
          { m with nodes_generated := m.nodes_generated + 1 } with
      | none => rw [hcall] at hout; exact absurd hout (by simp)
      | some cres =>
        rw [hcall] at hout
        obtain ⟨⟨⟨cresult, newBound⟩, cex, cm⟩, childCuts⟩ := cres
        cases cresult with
        | some sol =>
          simp only [Option.some_inj] at hout
          subst hout
          exact absurd hres (by simp)
        | none =>
          simp only at hout
          obtain ⟨hcb, hnb⟩ := hrec _ _ _ _ hcall rfl
          simp only at hcb hnb
          have hmin' : (if newBound < minB then newBound else minB)
              = (cuts ++ childCuts).foldr min usizeMAX := by
            rw [if_lt_eq_min, List.foldr_append, hmin]
            rcases hnb with h | h
            · have hle : newBound ≤ usizeMAX := by
                rw [h]
                exact foldr_min_le childCuts usizeMAX
              rw [← h, ← foldr_min_seed cuts newBound usizeMAX hle]
            · rw [h]
              simp only [List.foldr_cons, List.foldr_nil]
              rw [foldr_min_pull]
          refine ih _ cex cm (cuts ++ childCuts) out hout hres ?_ hmin'
          intro x hx
          rcases List.mem_append.mp hx with hx | hx
          · exact hc x hx
          · exact hcb x hx

theorem searchRecursiveI_bound {S : Type} [DecidableEq S] (p : Problem S) :
    ∀ (fuel : Nat) (node : Node S) (bound : Nat) (ex : List S) (m : Metrics)
      (out : ((Option (List Nat) × Nat) × List S × Metrics) × List Nat),
      searchRecursiveI p fuel node bound ex m = some out →
      out.1.1.1 = none →
      (∀ x ∈ out.2, bound < x) ∧
      (out.1.1.2 = out.2.foldr min usizeMAX ∨ out.2 = [out.1.1.2]) := by
  intro fuel
  induction fuel with
  | zero => intro node bound ex m out hout; exact absurd hout (by simp [searchRecursiveI])
  | succ fuel ih =>
    intro node bound ex m out hout hres
    rw [searchRecursiveI] at hout
    by_cases hcut : node.path_cost + p.heuristic node.state > bound
    · rw [if_pos hcut, Option.some_inj] at hout
      subst hout
      refine ⟨?_, Or.inr rfl⟩
      intro x hx
      simp only [List.mem_singleton] at hx
      subst hx
      exact hcut
    · rw [if_neg hcut] at hout
      by_cases hgoal : p.is_goal node.state
      · rw [if_pos hgoal, Option.some_inj] at hout
        subst hout
        exact absurd hres (by simp)
      · rw [if_neg hgoal] at hout
        have := srLoopI_bound node bound
          (fun n exx mm => searchRecursiveI p fuel n bound exx mm)
          (fun n exx mm o ho hr => ih n bound exx mm o ho hr)
          (p.successors node.state) usizeMAX (hsInsert ex node.state)
          { m with nodes_visited := m.nodes_visited + 1 } [] out hout hres
          (by intro x hx; exact absurd hx (List.not_mem_nil x)) rfl
        exact ⟨this.1, Or.inl this.2⟩

theorem srLoop_proj {S : Type} [DecidableEq S] (node : Node S)
    (recur : Node S → List S → Metrics →
      Option ((Option (List Nat) × Nat) × List S × Metrics))
    (recurI : Node S → List S → Metrics →
      Option (((Option (List Nat) × Nat) × List S × Metrics) × List Nat))
    (hproj : ∀ n ex mm, recur n ex mm = (recurI n ex mm).map (fun x => x.1)) :
    ∀ (rest : List (S × Nat)) (minB : Nat) (ex : List S) (m : Metrics)
      (cuts : List Nat),
      srLoop node recur rest minB ex m
        = (srLoopI node recurI rest minB ex m cuts).map (fun x => x.1) := by
  intro rest
  induction rest with
  | nil => intro minB ex m cuts; simp [srLoop, srLoopI]
  | cons sc rest ih =>
    obtain ⟨s, c⟩ := sc
    intro minB ex m cuts
    rw [srLoop, srLoopI]
    by_cases hmem : s ∈ ex
    · rw [if_pos hmem, if_pos hmem]
      exact ih minB ex m cuts
    · rw [if_neg hmem, if_neg hmem, hproj]
      cases hcall : recurI (node.child s m.nodes_generated c) ex
          { m with nodes_generated := m.nodes_generated + 1 } with
      | none => simp
      | some cres =>
        obtain ⟨⟨⟨cresult, newBound⟩, cex, cm⟩, childCuts⟩ := cres
        cases cresult with
        | some sol => simp
        | none =>
          simp only [Option.map_some]
          exact ih _ cex cm (cuts ++ childCuts)

theorem searchRecursive_proj {S : Type} [DecidableEq S] (p : Problem S) :
    ∀ (fuel : Nat) (node : Node S) (bound : Nat) (ex : List S) (m : Metrics),
      searchRecursive p fuel node bound ex m
        = (searchRecursiveI p fuel node bound ex m).map (fun x => x.1) := by
  intro fuel
  induction fuel with
  | zero => intro node bound ex m; simp [searchRecursive, searchRecursiveI]
  | succ fuel ih =>
    intro node bound ex m
    rw [searchRecursive, searchRecursiveI]
    by_cases hcut : node.path_cost + p.heuristic node.state > bound
    · rw [if_pos hcut, if_pos hcut]; rfl
    · rw [if_neg hcut, if_neg hcut]
      by_cases hgoal : p.is_goal node.state
      · rw [if_pos hgoal, if_pos hgoal]; rfl
      · rw [if_neg hgoal, if_neg hgoal]
        exact srLoop_proj node _ _ (fun n exx mm => ih n bound exx mm)
          (p.successors node.state) usizeMAX (hsInsert ex node.state)
          { m with nodes_visited := m.nodes_visited + 1 } []

/-- C7: IDA*'s iteration schedule.  (a) the first iteration runs with
bound `heuristic(initial_state)`; (b) an iteration that fails returns as
candidate bound the minimum of the `f = path_cost + heuristic` values at
which the `f > bound` cut fired during that iteration (every such value
strictly exceeds the bound; `usize::MAX` when none exists — the
degenerate right disjunct covers a root cut whose raw `f` is returned
unfiltered); (c) when the candidate is finite and the current bound is
below `max_bound`, the next iteration runs with exactly that candidate as
its bound; (d) otherwise the loop stops with status 2 (no solution). -/
theorem idastar_schedule {S : Type} [DecidableEq S] (p : Problem S) :
    (∀ maxBound recFuel iterFuel,
      IDAStar.search p maxBound recFuel iterFuel
        = idastarLoop p maxBound recFuel iterFuel
            (p.heuristic p.initial_state)
            { Metrics.default with nodes_generated := 1 }) ∧
    (∀ fuel (node : Node S) bound ex m nb ex2 m2,
      searchRecursive p fuel node bound ex m = some ((none, nb), ex2, m2) →
      ∃ cuts : List Nat,
        searchRecursiveI p fuel node bound ex m
          = some (((none, nb), ex2, m2), cuts) ∧
        (∀ x ∈ cuts, bound < x) ∧
        (nb = cuts.foldr min usizeMAX ∨ cuts = [nb])) ∧
    (∀ maxBound recFuel iterFuel bound m nb ex2 m2,
      searchRecursive p recFuel (Node.new p.initial_state) bound [] m
        = some ((none, nb), ex2, m2) →
      ¬(nb = usizeMAX ∨ bound ≥ maxBound) →
      idastarLoop p maxBound recFuel (iterFuel + 1) bound m
        = idastarLoop p maxBound recFuel iterFuel nb m2) ∧
    (∀ maxBound recFuel iterFuel bound m nb ex2 m2,
      searchRecursive p recFuel (Node.new p.initial_state) bound [] m
        = some ((none, nb), ex2, m2) →
      (nb = usizeMAX ∨ bound ≥ maxBound) →
      idastarLoop p maxBound recFuel (iterFuel + 1) bound m
        = some { solution := none, metrics := m2, status := 2 }) := by
  refine ⟨fun maxBound recFuel iterFuel => rfl, ?_, ?_, ?_⟩
  · intro fuel node bound ex m nb ex2 m2 h
    rw [searchRecursive_proj] at h
    cases hI : searchRecursiveI p fuel node bound ex m with
    | none => rw [hI] at h; exact absurd h (by simp)
    | some out =>
      rw [hI] at h
      simp only [Option.map_some', Option.some.injEq] at h
      obtain ⟨hb, hmin⟩ := searchRecursiveI_bound p fuel node bound ex m out hI
        (by rw [h])
      have hout : out = (((none, nb), ex2, m2), out.2) := by
        rw [Prod.ext_iff]
        exact ⟨h, rfl⟩
      refine ⟨out.2, ?_, hb, ?_⟩
      · exact congrArg some hout
      · have hnb : out.1.1.2 = nb := by rw [h]
        rw [← hnb]
        exact hmin
  · intro maxBound recFuel iterFuel bound m nb ex2 m2 h hcont
    rw [idastarLoop, h]
    simp only
    rw [if_neg hcont]
  · intro maxBound recFuel iterFuel bound m nb ex2 m2 h hstop
    rw [idastarLoop, h]
    simp only
    rw [if_pos hstop]

/-- Witness for the C7 theorem: conjunct (b) instantiated on the failing
iteration of IDA* over `twoEdgeProblem` at bound 0, which cuts twice at
`f = 1` and reports candidate bound 1. -/
theorem idastar_schedule_witness :
    ∃ cuts : List Nat,
      searchRecursiveI twoEdgeProblem 5 (Node.new 0) 0 []
          { Metrics.default with nodes_generated := 1 }
        = some (((none, 1), ([] : List Nat),
            { time_ms := 0, memory_kb := 0, nodes_visited := 3,
              nodes_generated := 3, max_frontier_size := 0,
              solution_length := 0 }), cuts) ∧
      (∀ x ∈ cuts, 0 < x) ∧
      (1 = cuts.foldr min usizeMAX ∨ cuts = [1]) :=
  (idastar_schedule twoEdgeProblem).2.1 5 (Node.new 0) 0 []
    { Metrics.default with nodes_generated := 1 } 1 []
    { time_ms := 0, memory_kb := 0, nodes_visited := 3, nodes_generated := 3,
      max_frontier_size := 0, solution_length := 0 }
    (by decide)

/-- C8: with a non-zero timeout configured, expiry of the timeout yields
a `Timeout` (status 1) result with no solution carrying the shared-metrics
snapshot read at expiry, plus a descriptive message; a channel failure
(neither success nor timeout) yields a task-level generic error — a
non-Timeout status with an error message — as a returned value, not an
abort. -/
theorem execute_with_timeout_spec (timeout_secs : Nat) (snap : Metrics)
    (direct : SearchResult) (hpos : timeout_secs > 0) :
    execute_with_timeout timeout_secs .timeout snap direct
      = ({ solution := none, metrics := snap, status := 1 },
          some ("Timeout apres " ++ toString timeout_secs ++ " secondes")) ∧
      (execute_with_timeout timeout_secs .disconnected snap direct).1.status
        = 2 ∧
      (execute_with_timeout timeout_secs .disconnected snap direct).1.status
        ≠ 1 ∧
      (execute_with_timeout timeout_secs .disconnected snap direct).1.solution
        = none ∧
      (execute_with_timeout timeout_secs .disconnected snap direct).2
        = some "Erreur de communication" := by
  simp [execute_with_timeout, hpos]

/-- Witness for the C8 theorem at `timeout_secs = 3`. -/
theorem execute_with_timeout_spec_witness :
    execute_with_timeout 3 .timeout Metrics.default
        { solution := none, metrics := Metrics.default, status := 2 }
      = ({ solution := none, metrics := Metrics.default, status := 1 },
          some ("Timeout apres " ++ toString 3 ++ " secondes")) ∧
      (execute_with_timeout 3 .disconnected Metrics.default
          { solution := none, metrics := Metrics.default, status := 2 }).1.status
        = 2 ∧
      (execute_with_timeout 3 .disconnected Metrics.default
          { solution := none, metrics := Metrics.default, status := 2 }).1.status
        ≠ 1 ∧
      (execute_with_timeout 3 .disconnected Metrics.default
          { solution := none, metrics := Metrics.default, status := 2 }).1.solution
        = none ∧
      (execute_with_timeout 3 .disconnected Metrics.default
          { solution := none, metrics := Metrics.default, status := 2 }).2
        = some "Erreur de communication" :=
  execute_with_timeout_spec 3 Metrics.default
    { solution := none, metrics := Metrics.default, status := 2 }
    (by decide)

/-- C10: `from_results` panics on the empty list (it indexes element 0),
and on every non-empty list in which no record has status 0 it returns a
rollup with `successful_instances = 0`, `total_instances` the list length
and all six averages equal to 0. -/
theorem from_results_spec (ebf : Metrics → ℚ) (results : List BenchmarkResult)
    (hne : results ≠ []) (hfail : ∀ r ∈ results, r.status ≠ 0) :
    (∃ agg, from_results ebf results = some agg ∧
      agg.successful_instances = 0 ∧
      agg.total_instances = results.length ∧
      agg.avg_time_ms = 0 ∧ agg.avg_memory_kb = 0 ∧
      agg.avg_nodes_visited = 0 ∧ agg.avg_nodes_generated = 0 ∧
      agg.avg_solution_length = 0 ∧ agg.avg_ebf = 0) ∧
    from_results ebf [] = none := by
  refine ⟨?_, rfl⟩
  match results with
  | [] => exact absurd rfl hne
  | r0 :: rest =>
    have hfilter : (r0 :: rest).filter (fun r => r.status == 0) = [] := by
      rw [List.filter_eq_nil_iff]
      intro r hr
      simpa using hfail r hr
    have heq : from_results ebf (r0 :: rest)
        = some { algorithm := r0.algorithm, problem := r0.problem
                 problem_size := r0.problem_size
                 total_instances := (r0 :: rest).length
                 successful_instances := 0
                 avg_time_ms := 0, avg_memory_kb := 0
                 avg_nodes_visited := 0, avg_nodes_generated := 0
                 avg_solution_length := 0, avg_ebf := 0 } := by
      simp [from_results, hfilter]
    exact ⟨_, heq, rfl, rfl, rfl, rfl, rfl, rfl, rfl, rfl⟩

/-- Witness for the C10 theorem on a one-element list whose only record
has status 2. -/
theorem from_results_spec_witness :
    (∃ agg, from_results (fun _ => 0) [failedRecord] = some agg ∧
      agg.successful_instances = 0 ∧
      agg.total_instances = [failedRecord].length ∧
      agg.avg_time_ms = 0 ∧ agg.avg_memory_kb = 0 ∧
      agg.avg_nodes_visited = 0 ∧ agg.avg_nodes_generated = 0 ∧
      agg.avg_solution_length = 0 ∧ agg.avg_ebf = 0) ∧
    from_results (fun _ => 0) [] = none :=
  from_results_spec (fun _ => 0) [failedRecord]
    (by simp) (by intro r hr; simp only [List.mem_singleton] at hr; rw [hr]; decide)

theorem exists_isLeast_dist {S : Type} (p : Problem S) (s : S)
    (h : ∃ d, ReachN p d s) :
    ∃ d0, IsLeast {d | ReachN p d s} d0 :=
  ⟨sInf {d | ReachN p d s}, Nat.sInf_mem h, fun _ hd => Nat.sInf_le hd⟩

theorem reach_mem_of_empty_frontier {S : Type} (p : Problem S) (E : List S)
    (hinit : p.initial_state ∈ E)
    (hclosure : ∀ s ∈ E, ∀ sc ∈ p.successors s, sc.1 ∈ E) :
    ∀ d s, ReachN p d s → s ∈ E := by
  intro d
  induction d with
  | zero => intro s hs; rw [hs]; exact hinit
  | succ d ih =>
    intro s hs
    obtain ⟨t, c, ht, hedge⟩ := hs
    exact hclosure t (ih t ht) (s, c) hedge

theorem bfsExpand_cover {S : Type} [DecidableEq S] (u : Node S) (E : List S) :
    ∀ (succs : List (S × Nat)) (F : List (Node S)) (m : Metrics)
      (sc : S × Nat), sc ∈ succs →
      sc.1 ∈ E ∨ sc.1 ∈ ((bfsExpand u E succs F m).1).map Node.state := by
  intro succs
  induction succs with
  | nil => intro F m sc hsc; exact absurd hsc (List.not_mem_nil sc)
  | cons sc0 rest ih =>
    obtain ⟨s, c⟩ := sc0
    intro F m sc hsc
    rcases List.mem_cons.mp hsc with heq | htail
    · subst heq
      by_cases hadd : s ∉ E ∧ s ∉ F.map Node.state
      · right
        rw [bfsExpand, if_pos hadd]
        obtain ⟨cs, h1, -, -⟩ := bfsExpand_spec u E rest
          (F ++ [u.child s m.nodes_generated c])
          { m with nodes_generated := m.nodes_generated + 1 }
        rw [h1]
        simp [Node.child, Node.state]
      · rw [not_and_or, not_not, not_not] at hadd
        rcases hadd with h | h
        · exact Or.inl h
        · right
          rw [bfsExpand, if_neg]
          · obtain ⟨cs, h1, -, -⟩ := bfsExpand_spec u E rest F m
            rw [h1]
            simp only [List.map_append, List.mem_append]
            exact Or.inl h
          · rw [not_and_or, not_not, not_not]
            exact Or.inr h
    · rw [bfsExpand]
      by_cases hadd : s ∉ E ∧ s ∉ F.map Node.state
      · rw [if_pos hadd]
        exact ih _ _ sc htail
      · rw [if_neg hadd]
        exact ih _ _ sc htail

theorem nodup_append_children {S : Type} :
    ∀ (cs : List (Node S)) (base : List S), base.Nodup →
      (∀ j (hj : j < cs.length), (cs.get ⟨j, hj⟩).state ∉ base ∧
        (cs.get ⟨j, hj⟩).state ∉ (cs.take j).map Node.state) →
      (base ++ cs.map Node.state).Nodup := by
  intro cs
  induction cs with
  | nil => intro base hbase _; simpa using hbase
  | cons c cs ih =>
    intro base hbase h
    have h0 := (h 0 (by simp)).1
    simp only [List.get] at h0
    have hbase' : (base ++ [c.state]).Nodup := by
      refine hbase.append (by simp) ?_
      intro a ha ha'
      simp only [List.mem_singleton] at ha'
      subst ha'
      exact h0 ha
    have h' : ∀ j (hj : j < cs.length), (cs.get ⟨j, hj⟩).state ∉ base ++ [c.state] ∧
        (cs.get ⟨j, hj⟩).state ∉ (cs.take j).map Node.state := by
      intro j hj
      have hj1 := h (j + 1) (by simpa using Nat.succ_lt_succ hj)
      simp only [List.get, List.take_succ_cons, List.map_cons,
        List.mem_cons] at hj1
      refine ⟨?_, fun hmem => hj1.2 (Or.inr hmem)⟩
      intro hmem
      rcases List.mem_append.mp hmem with hm | hm
      · exact hj1.1 hm
      · simp only [List.mem_singleton] at hm
        exact hj1.2 (Or.inl hm)
    have := ih (base ++ [c.state]) hbase' h'
    rw [List.map_cons, List.append_cons]
    exact this

theorem bfsInv_step {S : Type} [DecidableEq S] (p : Problem S)
    (u : Node S) (rest : List (Node S)) (E : List S) (m : Metrics)
    (hinv : BFSInv p (u :: rest) E)
    (hg : p.is_goal u.state = false) :
    BFSInv p
      (bfsExpand u (hsInsert E u.state) (p.successors u.state) rest m).1
      (hsInsert E u.state) := by
  obtain ⟨hEnodup, hFnodup, hdisj⟩ := List.nodup_append.mp hinv.nodup
  simp only [List.map_cons, List.nodup_cons] at hFnodup
  have hukey : u.state ∉ E := by
    intro h
    exact hdisj h (by simp)
  have hE' : hsInsert E u.state = u.state :: E := by
    simp [hsInsert, hukey]
  have hu_least := hinv.tight u (by simp)
  have hu_rel := (List.pairwise_cons.mp hinv.levels).1
  have hrest_pair := (List.pairwise_cons.mp hinv.levels).2
  obtain ⟨cs, h1, h2, h3⟩ := bfsExpand_spec u (hsInsert E u.state)
    (p.successors u.state) rest m
  have hcs : ∀ n ∈ cs, (∃ c, (n.state, c) ∈ p.successors u.state) ∧
      n.depth = u.depth + 1 ∧
      (∃ a, n.extract_solution = u.extract_solution ++ [a]) ∧
      n.state ∉ hsInsert E u.state ∧ n.state ∉ rest.map Node.state := by
    intro n hn
    obtain ⟨⟨j, hj⟩, hget⟩ := List.mem_iff_get.mp hn
    obtain ⟨s, c, hmem, hnotE, hnotlive, heq⟩ := h3 j hj
    rw [hget] at heq
    subst heq
    simp only [List.map_append, List.mem_append, not_or] at hnotlive
    exact ⟨⟨c, hmem⟩, rfl, ⟨m.nodes_generated + j,
      extract_solution_child u s _ c⟩, hnotE, hnotlive.1⟩
  rw [h1]
  constructor
  case init_seen =>
    rcases hinv.init_seen with h | h
    · exact Or.inl (by rw [hE']; exact List.mem_cons_of_mem _ h)
    · simp only [List.map_cons, List.mem_cons] at h
      rcases h with h | h
      · exact Or.inl (by rw [hE', h]; exact List.mem_cons_self _ _)
      · exact Or.inr (by rw [List.map_append]; exact List.mem_append_left _ h)
  case nodup =>
    have hbase : ((hsInsert E u.state) ++ rest.map Node.state).Nodup := by
      rw [hE', List.cons_append, List.nodup_cons]
      refine ⟨?_, List.nodup_append.mpr ⟨hEnodup, hFnodup.2, ?_⟩⟩
      · intro h
        rcases List.mem_append.mp h with h | h
        · exact hukey h
        · exact hFnodup.1 h
      · intro a ha ha'
        exact hdisj ha (by simp [ha'])
    have := nodup_append_children cs ((hsInsert E u.state) ++ rest.map Node.state)
      hbase ?_
    · rw [List.map_append, ← List.append_assoc]
      exact this
    · intro j hj
      obtain ⟨s, c, hmem, hnotE, hnotlive, heq⟩ := h3 j hj
      have hst : (cs.get ⟨j, hj⟩).state = s := by rw [heq]; rfl
      simp only [List.map_append, List.mem_append, not_or] at hnotlive
      rw [hst]
      constructor
      · intro h
        rcases List.mem_append.mp h with h | h
        · exact hnotE h
        · exact hnotlive.1 h
      · exact hnotlive.2
  case tight =>
    intro n hn
    rcases List.mem_append.mp hn with hn | hn
    · exact hinv.tight n (List.mem_cons_of_mem _ hn)
    · obtain ⟨⟨c, hmem⟩, hdep, -, hnotE, hnotrest⟩ := hcs n hn
      rw [hdep]
      constructor
      · exact ⟨u.state, c, hu_least.1, hmem⟩
      · intro d' hd'
        by_contra hlt
        push_neg at hlt
        obtain ⟨d0, hd0⟩ := exists_isLeast_dist p n.state ⟨d', hd'⟩
        have hle : d0 ≤ u.depth := le_trans (hd0.2 hd') (by omega)
        rcases hinv.complete u rfl n.state d0 hd0 hle with h | h
        · exact hnotE (by rw [hE']; exact List.mem_cons_of_mem _ h)
        · simp only [List.map_cons, List.mem_cons] at h
          rcases h with h | h
          · exact hnotE (by rw [hE', h]; exact List.mem_cons_self _ _)
          · exact hnotrest h
  case levels =>
    rw [List.pairwise_append]
    refine ⟨hrest_pair, ?_, ?_⟩
    · rw [List.pairwise_iff_get]
      intro i j hij
      have hi := (hcs (cs.get i) (by exact cs.get_mem i.1 i.2)).2.1
      have hj := (hcs (cs.get j) (by exact cs.get_mem j.1 j.2)).2.1
      omega
    · intro a ha b hb
      have hadep := hu_rel a ha
      have hbdep := (hcs b hb).2.1
      omega
  case closure =>
    intro s hs sc hsc
    rw [hE'] at hs
    rcases List.mem_cons.mp hs with hs | hs
    · subst hs
      have := bfsExpand_cover u (hsInsert E u.state) (p.successors u.state)
        rest m sc hsc
      rw [h1] at this
      exact this
    · rcases hinv.closure s hs sc hsc with h | h
      · exact Or.inl (by rw [hE']; exact List.mem_cons_of_mem _ h)
      · simp only [List.map_cons, List.mem_cons] at h
        rcases h with h | h
        · exact Or.inl (by rw [hE', h]; exact List.mem_cons_self _ _)
        · exact Or.inr (by rw [List.map_append]; exact List.mem_append_left _ h)
  case complete =>
    intro n0 hn0 s d0 hd0 hle
    have hn0mem : n0 ∈ rest ++ cs := List.mem_of_mem_head? hn0
    have hn0dep : n0.depth ≤ u.depth + 1 := by
      rcases List.mem_append.mp hn0mem with h | h
      · exact (hu_rel n0 h).2
      · exact le_of_eq (hcs n0 h).2.1
    by_cases hcase : d0 ≤ u.depth
    · rcases hinv.complete u rfl s d0 hd0 hcase with h | h
      · exact Or.inl (by rw [hE']; exact List.mem_cons_of_mem _ h)
      · simp only [List.map_cons, List.mem_cons] at h
        rcases h with h | h
        · exact Or.inl (by rw [hE', h]; exact List.mem_cons_self _ _)
        · exact Or.inr (by rw [List.map_append]; exact List.mem_append_left _ h)
    · have hd0eq : d0 = u.depth + 1 := by omega
      have hn0eq : n0.depth = u.depth + 1 := by omega
      have hreach : ReachN p (u.depth + 1) s := by rw [← hd0eq]; exact hd0.1
      obtain ⟨t, c, htreach, hedge⟩ := hreach
      obtain ⟨dt, hdt⟩ := exists_isLeast_dist p t ⟨u.depth, htreach⟩
      have hdtle : dt ≤ u.depth := hdt.2 htreach
      rcases hinv.complete u rfl t dt hdt hdtle with ht | ht
      · rcases hinv.closure t ht (s, c) hedge with h | h
        · exact Or.inl (by rw [hE']; exact List.mem_cons_of_mem _ h)
        · simp only [List.map_cons, List.mem_cons] at h
          rcases h with h | h
          · exact Or.inl (by rw [hE', h]; exact List.mem_cons_self _ _)
          · exact Or.inr (by rw [List.map_append]; exact List.mem_append_left _ h)
      · simp only [List.map_cons, List.mem_cons] at ht
        rcases ht with ht | ht
        · have := bfsExpand_cover u (hsInsert E u.state)
            (p.successors u.state) rest m (s, c) (by rw [← ht]; exact hedge)
          rw [h1] at this
          exact this
        · obtain ⟨nt, hnt_mem, hnt_state⟩ := List.mem_map.mp ht
          have hnt_least := hinv.tight nt (List.mem_cons_of_mem _ hnt_mem)
          have hnt_dep : nt.depth = dt := by
            rw [hnt_state] at hnt_least
            exact hnt_least.unique hdt
          match rest, hnt_mem with
          | r0 :: rest', hnt_mem =>
            have hr0 : n0 = r0 := by
              simp only [List.cons_append, List.head?_cons,
                Option.some_inj] at hn0
              exact hn0.symm
            have hr0dep : r0.depth = u.depth + 1 := by rw [← hr0]; exact hn0eq
            have : u.depth + 1 ≤ nt.depth := by
              rcases List.mem_cons.mp hnt_mem with h | h
              · rw [h, hr0dep]
              · have := (List.pairwise_cons.mp hrest_pair).1 nt h
                omega
            omega
  case no_goal =>
    intro s hs
    rw [hE'] at hs
    rcases List.mem_cons.mp hs with hs | hs
    · rw [hs]; exact hg
    · exact hinv.no_goal s hs
  case sol_len =>
    intro n hn
    rcases List.mem_append.mp hn with hn | hn
    · exact hinv.sol_len n (List.mem_cons_of_mem _ hn)
    · obtain ⟨-, hdep, ⟨a, hext⟩, -, -⟩ := hcs n hn
      rw [hext, hdep, List.length_append,
        hinv.sol_len u (by simp)]
      rfl

theorem bfsLoop_success {S : Type} [DecidableEq S] [Fintype S]
    (p : Problem S) (D : Nat)
    (hD : IsLeast {d | ∃ s, ReachN p d s ∧ p.is_goal s = true} D) :
    ∀ (fuel : Nat) (F : List (Node S)) (E : List S) (m : Metrics),
      BFSInv p F E → Fintype.card S + 1 ≤ fuel + E.length →
      ∃ r sol, bfsLoop p fuel F E m = some r ∧ r.status = 0 ∧
        r.solution = some sol ∧ sol.length = D := by
  intro fuel
  induction fuel with
  | zero =>
    intro F E m hinv hfuel
    exfalso
    have hE : E.Nodup := (List.nodup_append.mp hinv.nodup).1
    have := hE.length_le_card
    omega
  | succ fuel ih =>
    intro F E m hinv hfuel
    match F with
    | [] =>
      exfalso
      obtain ⟨sg, hsg_reach, hsg_goal⟩ := hD.1
      have hinitE : p.initial_state ∈ E := by
        rcases hinv.init_seen with h | h
        · exact h
        · exact absurd h (by simp)
      have hclosure : ∀ s ∈ E, ∀ sc ∈ p.successors s, sc.1 ∈ E := by
        intro s hs sc hsc
        rcases hinv.closure s hs sc hsc with h | h
        · exact h
        · exact absurd h (by simp)
      have hmem := reach_mem_of_empty_frontier p E hinitE hclosure D sg hsg_reach
      rw [hinv.no_goal sg hmem] at hsg_goal
      exact Bool.false_ne_true hsg_goal
    | u :: rest =>
      by_cases hg : p.is_goal u.state = true
      · have hu_least := hinv.tight u (by simp)
        have hDle : D ≤ u.depth := hD.2 ⟨u.state, hu_least.1, hg⟩
        have hle : u.depth ≤ D := by
          by_contra hlt
          push_neg at hlt
          obtain ⟨sg, hsgr, hsgg⟩ := hD.1
          obtain ⟨dg, hdg⟩ := exists_isLeast_dist p sg ⟨D, hsgr⟩
          have hdgD : dg ≤ D := hdg.2 hsgr
          have hdgle : dg ≤ u.depth := by omega
          rcases hinv.complete u rfl sg dg hdg hdgle with h | h
          · rw [hinv.no_goal sg h] at hsgg
            exact Bool.false_ne_true hsgg
          · simp only [List.map_cons, List.mem_cons] at h
            rcases h with h | h
            · rw [← h] at hu_least
              have := hu_least.unique hdg
              omega
            · obtain ⟨nt, hnt_mem, hnt_state⟩ := List.mem_map.mp h
              have hnt_least := hinv.tight nt (List.mem_cons_of_mem _ hnt_mem)
              rw [hnt_state] at hnt_least
              have h1 := hnt_least.unique hdg
              have h2 := ((List.pairwise_cons.mp hinv.levels).1 nt hnt_mem).1
              omega
        have hlen : u.extract_solution.length = D := by
          rw [hinv.sol_len u (by simp)]
          omega
        exact ⟨_, u.extract_solution, by rw [bfsLoop, if_pos hg], rfl, rfl,
          hlen⟩
      · have hg' : p.is_goal u.state = false := Bool.eq_false_iff.mpr hg
        have hukey : u.state ∉ E := by
          have := (List.nodup_append.mp hinv.nodup).2.2
          intro h
          exact this h (by simp)
        have hElen : (hsInsert E u.state).length = E.length + 1 := by
          simp [hsInsert, hukey]
        have hinv' := bfsInv_step p u rest E
          { m with nodes_visited := m.nodes_visited + 1 } hinv hg'
        obtain ⟨r, sol, heq, h0, hsol, hlen⟩ :=
          ih (bfsExpand u (hsInsert E u.state) (p.successors u.state) rest
              { m with nodes_visited := m.nodes_visited + 1 }).1
            (hsInsert E u.state)
            { (bfsExpand u (hsInsert E u.state) (p.successors u.state) rest
                { m with nodes_visited := m.nodes_visited + 1 }).2 with
              max_frontier_size :=
                max (bfsExpand u (hsInsert E u.state) (p.successors u.state)
                    rest
                    { m with nodes_visited := m.nodes_visited + 1 }).2.max_frontier_size
                  (bfsExpand u (hsInsert E u.state) (p.successors u.state)
                    rest
                    { m with nodes_visited := m.nodes_visited + 1 }).1.length }
            hinv' (by omega)
        refine ⟨r, sol, ?_, h0, hsol, hlen⟩
        rw [bfsLoop, if_neg hg]
        exact heq

/-- C2: for any acyclic problem over a finite state space whose every
successor edge has cost 1 and which has a reachable goal — `D` being the
least number of successor steps from the initial state to any goal state
— BFS (run with fuel `card S + 1`, which bounds its loop iterations)
returns status 0 (Success) with a solution of length exactly `D`. -/
theorem bfs_optimal {S : Type} [DecidableEq S] [Fintype S] (p : Problem S)
    (hacyc : Acyclic p)
    (hunit : ∀ (s : S) (sc : S × Nat), sc ∈ p.successors s → sc.2 = 1)
    (D : Nat)
    (hD : IsLeast {d | ∃ s, ReachN p d s ∧ p.is_goal s = true} D) :
    ∃ r sol, BFS.search p (Fintype.card S + 1) = some r ∧ r.status = 0 ∧
      r.solution = some sol ∧ sol.length = D := by
  refine bfsLoop_success p D hD (Fintype.card S + 1)
    [Node.new p.initial_state] [] _ ?_ (by simp)
  constructor
  case init_seen => simp [Node.new, Node.state]
  case nodup => simp
  case tight =>
    intro n hn
    simp only [List.mem_singleton] at hn
    subst hn
    exact ⟨rfl, fun d _ => Nat.zero_le d⟩
  case levels => simp
  case closure => intro s hs; exact absurd hs (List.not_mem_nil s)
  case complete =>
    intro n0 hn0 s d hd hle
    simp only [List.head?_cons, Option.some_inj] at hn0
    subst hn0
    have hd0 : d = 0 := Nat.le_zero.mp hle
    rw [hd0] at hd
    have : s = p.initial_state := hd.1
    right
    simp [this, Node.new, Node.state]
  case no_goal => intro s hs; exact absurd hs (List.not_mem_nil s)
  case sol_len =>
    intro n hn
    simp only [List.mem_singleton] at hn
    subst hn
    rfl

/-- Witness for the C2 theorem: on `finChainProblem` (acyclic, unit
costs, goal at distance 1), BFS run with fuel `card (Fin 3) + 1` succeeds
with a solution of length 1. -/
theorem bfs_optimal_witness :
    ∃ r sol,
      BFS.search finChainProblem (Fintype.card (Fin 3) + 1) = some r ∧
      r.status = 0 ∧ r.solution = some sol ∧ sol.length = 1 := by
  refine bfs_optimal finChainProblem ?_ (by decide) 1 ⟨⟨1, ⟨0, 1, rfl, by decide⟩, by decide⟩, ?_⟩
  · intro s d hd hstep
    match d, hstep with
    | d' + 1, ⟨u, c, hprev, hedge⟩ =>
      have hu0 : u = 0 := by
        by_cases hu : u = 0
        · exact hu
        · simp [finChainProblem, hu] at hedge
      have hs12 : s = 1 ∨ s = 2 := by
        rw [hu0] at hedge
        simp [finChainProblem] at hedge
        rcases hedge with h | h
        · exact Or.inl h.1
        · exact Or.inr h.1
      match d', hprev with
      | 0, hprev =>
        have hs : s = u := hprev
        rw [hu0] at hs
        rcases hs12 with h | h
        · rw [hs] at h; exact absurd h (by decide)
        · rw [hs] at h; exact absurd h (by decide)
      | d'' + 1, ⟨v, c', hprev2, hedge2⟩ =>
        rw [hu0] at hedge2
        by_cases hv : v = 0
        · rw [hv] at hedge2
          simp [finChainProblem] at hedge2
        · simp [finChainProblem, hv] at hedge2
  · intro d hd
    obtain ⟨s, hreach, hgoal⟩ := hd
    match d with
    | 0 =>
      have hs : s = finChainProblem.initial_state := hreach
      rw [hs] at hgoal
      exact absurd hgoal (by decide)
    | d + 1 => omega

end BenchRust
